import Mathlib

/-!
Verification of the shortest-path core of the Dijkstras-vs-BFS repository
(src/graph_reader.rs, src/graph_algos.rs, src/main.rs).

Shallow embedding conventions:
* `HashMap<u32, V>` is modelled as an association list `List (Nat × V)`;
  `lookupM` reads the first binding of a key and `insertM` replaces it
  (or appends a fresh binding), matching `HashMap` content semantics.
  Rust guarantees that keys are distinct; where a fact needs this, it is an
  explicit hypothesis.
* `u32` values are `Nat` with wrap-around additions written `% 4294967296`
  at the spots where the Rust code performs `u32` addition.
* Rust indexing `map[&k]`, which panics when the key is missing, is
  modelled by `Option`: a `none` result of an embedded function is a panic
  (or, for the fuel-based loops, fuel exhaustion, which is proved
  unreachable for the fuel supplied).
* The `while` loops are embedded with explicit fuel; the top-level
  functions supply `sumVals dists + 1` fuel, which is proved sufficient
  (each iteration strictly decreases `sumVals dists + queue length`).
* The random shuffle of `rand::thread_rng` in the two harness functions is
  modelled by an explicit `shuffled` list parameter; theorems quantify over
  all permutations of the key list.
* `BinaryHeap<NodeCost>` with the reversed `Ord` on the cost component
  (src/graph_algos.rs lines 103-119) pops some entry of minimal cost; the
  model (`popMin`) pops the first entry of minimal cost.
-/

namespace DijkstraVsBFS

/-- Value of `u32::MAX`, the sentinel distance for unreachable vertices. -/
def U32MAX : Nat := 4294967295

/-- Modulus of `u32` arithmetic. -/
def U32MOD : Nat := 4294967296

/-- Association-list model of `HashMap<u32, V>`: read the first binding. -/
def lookupM {α : Type} : List (Nat × α) → Nat → Option α
  | [], _ => none
  | (k, v) :: m, j => if k = j then some v else lookupM m j

/-- Association-list model of `HashMap::insert`: replace the first binding
of the key, or append a new binding. -/
def insertM {α : Type} : List (Nat × α) → Nat → α → List (Nat × α)
  | [], j, x => [(j, x)]
  | (k, v) :: m, j, x => if k = j then (j, x) :: m else (k, v) :: insertM m j x

/-- Key list of an association list (`HashMap::keys`). -/
def keysOf {α : Type} (m : List (Nat × α)) : List Nat := m.map (fun p => p.1)

/-- Sum of the values of a distance table, used as loop fuel. -/
def sumVals (m : List (Nat × Nat)) : Nat := (m.map (fun p => p.2)).sum

/-- Distance seen at a key, defaulting to the `u32::MAX` sentinel. -/
def DV (m : List (Nat × Nat)) (k : Nat) : Nat := (lookupM m k).getD U32MAX

/-- Unweighted adjacency structure: `HashMap<u32, Vec<u32>>`. -/
abbrev Adj := List (Nat × List Nat)

/-- Weighted adjacency structure: `HashMap<u32, Vec<(u32, u32)>>`. -/
abbrev WAdj := List (Nat × List (Nat × Nat))

/-- Neighbor list of a vertex; a missing key means an empty list, matching
`adjacency_list.get(&curr_node).unwrap_or(&vec![])`. -/
def adjOf (adj : Adj) (k : Nat) : List Nat := (lookupM adj k).getD []

/-- Weighted neighbor list of a vertex (`adj_list.get(...).unwrap_or(&vec![])`). -/
def wAdjOf (adj : WAdj) (k : Nat) : List (Nat × Nat) := (lookupM adj k).getD []

/-- One `adjacency_list.entry(a).or_insert(vec![]).push(b)` step of
`edges_to_adjacency_list` (src/graph_reader.rs lines 10-13). -/
def adjPush (m : Adj) (a b : Nat) : Adj := insertM m a (adjOf m a ++ [b])

/-- Model of `edges_to_adjacency_list` (src/graph_reader.rs lines 8-15):
for each edge `(a, b)`, push `b` onto `a`'s neighbor list and `a` onto
`b`'s neighbor list. -/
def edges_to_adjacency_list (edges : List (Nat × Nat)) : Adj :=
  edges.foldl (fun m e => adjPush (adjPush m e.1 e.2) e.2 e.1) []

/-- Model of `edges_to_weighted_adjacency_list` (src/graph_reader.rs lines
21-29): give every neighbor entry weight `1`. -/
def edges_to_weighted_adjacency_list (original_adj_list : Adj) : WAdj :=
  original_adj_list.map (fun p => (p.1, p.2.map (fun adj_node => (adj_node, 1))))

/-- Model of `init_hashmap` (src/graph_algos.rs lines 61-70): every key of
the adjacency list maps to `u32::MAX`, then the start node is set to `0`. -/
def init_hashmap (adjacency_list : Adj) (start_node : Nat) : List (Nat × Nat) :=
  insertM (adjacency_list.map (fun p => (p.1, U32MAX))) start_node 0

/-- Inner `for neighbor in ...` loop of `breadth_first_search`
(src/graph_algos.rs lines 83-89).  Each iteration reads
`dists[&curr_node]`, adds `1` (u32 addition, hence the modulus), reads
`dists[neighbor]` and relaxes; a missing key is a panic (`none`).
Relaxed neighbors are pushed onto the back of the FIFO queue. -/
def bfsRelax (curr : Nat) :
    List (Nat × Nat) → List Nat → List Nat → Option (List (Nat × Nat) × List Nat)
  | dists, queue, [] => some (dists, queue)
  | dists, queue, v :: vs =>
    match lookupM dists curr with
    | none => none
    | some dc =>
      let new_dist := (dc + 1) % U32MOD
      match lookupM dists v with
      | none => none
      | some dv =>
        if new_dist < dv then bfsRelax curr (insertM dists v new_dist) (queue ++ [v]) vs
        else bfsRelax curr dists queue vs

/-- Outer `while let Some(curr_node) = queue.pop_front()` loop of
`breadth_first_search` (src/graph_algos.rs lines 82-90), with fuel. -/
def bfsLoop (adj : Adj) : Nat → List (Nat × Nat) → List Nat → Option (List (Nat × Nat))
  | _, dists, [] => some dists
  | 0, _, _ :: _ => none
  | fuel + 1, dists, curr :: queue =>
    match bfsRelax curr dists queue (adjOf adj curr) with
    | none => none
    | some (dists2, queue2) => bfsLoop adj fuel dists2 queue2

/-- Model of `breadth_first_search` (src/graph_algos.rs lines 75-93).  The
fuel `sumVals dists + 1` is proved sufficient below, so `none` means the
Rust code panics on a missing `dists` key. -/
def breadth_first_search (adjacency_list : Adj) (start_node : Nat) :
    Option (List (Nat × Nat)) :=
  let dists := init_hashmap adjacency_list start_node
  bfsLoop adjacency_list (sumVals dists + 1) dists [start_node]

/-- Pop of `BinaryHeap<NodeCost>`: with the reversed `Ord` of `NodeCost`
(src/graph_algos.rs lines 109-113) the heap yields an entry of minimal
cost; the model removes the first entry of minimal cost. -/
def popMin : List (Nat × Nat) → Option ((Nat × Nat) × List (Nat × Nat))
  | [] => none
  | x :: xs =>
    match popMin xs with
    | none => some (x, [])
    | some (m, rest) => if x.2 ≤ m.2 then some (x, xs) else some (m, x :: rest)

/-- Inner `for (neighbor, weight) in ...` loop of `dijkstras`
(src/graph_algos.rs lines 141-147): `new_cost = curr_cost + weight` is u32
addition (hence the modulus); relaxation pushes the neighbor with its new
cost onto the priority queue. -/
def dijRelax (c : Nat) :
    List (Nat × Nat) → List (Nat × Nat) → List (Nat × Nat) →
      Option (List (Nat × Nat) × List (Nat × Nat))
  | dists, q, [] => some (dists, q)
  | dists, q, (v, w) :: vs =>
    let new_cost := (c + w) % U32MOD
    match lookupM dists v with
    | none => none
    | some dv =>
      if new_cost < dv then dijRelax c (insertM dists v new_cost) ((v, new_cost) :: q) vs
      else dijRelax c dists q vs

/-- Outer `while let Some(NodeCost(curr_node, curr_cost)) = p_queue.pop()`
loop of `dijkstras` (src/graph_algos.rs lines 137-148), with fuel: pop a
minimal-cost entry, discard it when its cost exceeds the recorded best
distance (`curr_cost > dists[&curr_node]`), otherwise relax
the neighbors. -/
def dijLoop (adj : WAdj) :
    Nat → List (Nat × Nat) → List (Nat × Nat) → Option (List (Nat × Nat))
  | 0, dists, q =>
    match popMin q with
    | none => some dists
    | some _ => none
  | fuel + 1, dists, q =>
    match popMin q with
    | none => some dists
    | some ((u, c), rest) =>
      match lookupM dists u with
      | none => none
      | some du =>
        if c > du then dijLoop adj fuel dists rest
        else
          match dijRelax c dists rest (wAdjOf adj u) with
          | none => none
          | some (dists2, q2) => dijLoop adj fuel dists2 q2

/-- Model of `dijkstras` (src/graph_algos.rs lines 125-150): distances of
all keys start at `u32::MAX`, the start vertex at `0`, and the priority
queue holds `NodeCost(start, 0)`. -/
def dijkstras (adj_list : WAdj) (start : Nat) : Option (List (Nat × Nat)) :=
  let dists := insertM (adj_list.map (fun p => (p.1, U32MAX))) start 0
  dijLoop adj_list (sumVals dists + 1) dists [(start, 0)]

/-- DistancePair (src/graph_algos.rs lines 11-15): two vertices and the
shortest distance between them. -/
structure DistancePair where
  node_1 : Nat
  node_2 : Nat
  distance : Nat
deriving DecidableEq, Repr

/-- Inner `for j in (i + 1)..num_vertices` loop of the two harness
functions (src/graph_algos.rs lines 42-52 and 180-189): look the end node
up in the distance table (`dists[&end_node]`, a panic when missing) and
emit one `DistancePair` per later sample element. -/
def innerPairs (dists : List (Nat × Nat)) (start_node : Nat) :
    List Nat → Option (List DistancePair)
  | [] => some []
  | end_node :: rest =>
    match lookupM dists end_node with
    | none => none
    | some dist =>
      match innerPairs dists start_node rest with
      | none => none
      | some l => some ({ node_1 := start_node, node_2 := end_node, distance := dist } :: l)

/-- Outer `for i in 0..num_vertices` loop of `run_random_test_bfs`
(src/graph_algos.rs lines 38-53): run BFS from the `i`-th chosen vertex
and pair it with every later chosen vertex. -/
def outerBfs (adj : Adj) : List Nat → Option (List DistancePair)
  | [] => some []
  | start_node :: rest =>
    match breadth_first_search adj start_node with
    | none => none
    | some dists =>
      match innerPairs dists start_node rest with
      | none => none
      | some row =>
        match outerBfs adj rest with
        | none => none
        | some l => some (row ++ l)

/-- Model of `run_random_test_bfs` (src/graph_algos.rs lines 19-56).  The
`thread_rng` shuffle of the key list is modelled by the explicit
`shuffled` parameter (theorems quantify over permutations of the keys);
the code takes the first `num_vertices` shuffled keys.  The
`assert!(num_vertices <= adjacency_list.len())` panic is `none`. -/
def run_random_test_bfs (adjacency_list : Adj) (num_vertices : Nat)
    (shuffled : List Nat) : Option (List DistancePair) :=
  if num_vertices ≤ adjacency_list.length then
    outerBfs adjacency_list (shuffled.take num_vertices)
  else none

/-- Outer loop of `run_random_test_dijkstras` (src/graph_algos.rs lines
176-191). -/
def outerDij (adj : WAdj) : List Nat → Option (List DistancePair)
  | [] => some []
  | start_node :: rest =>
    match dijkstras adj start_node with
    | none => none
    | some dists =>
      match innerPairs dists start_node rest with
      | none => none
      | some row =>
        match outerDij adj rest with
        | none => none
        | some l => some (row ++ l)

/-- Model of `run_random_test_dijkstras` (src/graph_algos.rs lines
154-194), with the shuffle modelled as in `run_random_test_bfs`. -/
def run_random_test_dijkstras (adjacency_list : WAdj) (num_vertices : Nat)
    (shuffled : List Nat) : Option (List DistancePair) :=
  if num_vertices ≤ adjacency_list.length then
    outerDij adjacency_list (shuffled.take num_vertices)
  else none

/-- Model of `calc_distance_stats` (src/main.rs lines 157-182).  The
`assert!(num_distances > 0)` panic is `none`.  `total_distance` is a `u32`
accumulator, hence the wrap-around addition.  The `f64` arithmetic of the
mean and of the squared deviations is modelled exactly over `ℚ`; the final
`variance.sqrt()` has no exact rational counterpart, so the function
returns `(count, mean, variance)` and the standard deviation of the Rust
code is the square root of the last component. -/
def calc_distance_stats (shortest_dists : List DistancePair) : Option (Nat × ℚ × ℚ) :=
  let num_distances := shortest_dists.length
  if 0 < num_distances then
    let total_distance : Nat :=
      shortest_dists.foldl (fun acc p => (acc + p.distance) % U32MOD) 0
    let mean : ℚ := (total_distance : ℚ) / (num_distances : ℚ)
    let sum_of_squares : ℚ :=
      shortest_dists.foldl (fun acc p => acc + ((p.distance : ℚ) - mean) ^ 2) 0
    some (num_distances, mean, sum_of_squares / (num_distances : ℚ))
  else none

/-! Association-list map lemmas. -/

theorem lookupM_insertM {α : Type} (m : List (Nat × α)) (k j : Nat) (x : α) :
    lookupM (insertM m k x) j = if k = j then some x else lookupM m j := by
  induction m with
  | nil => by_cases h : k = j <;> simp [insertM, lookupM, h]
  | cons p m ih =>
    obtain ⟨a, b⟩ := p
    by_cases hak : a = k
    · subst hak
      by_cases haj : a = j <;> simp [insertM, lookupM, haj]
    · by_cases haj : a = j
      · subst haj
        have hka : ¬ k = a := fun h => hak h.symm
        simp [insertM, lookupM, hak, hka]
      · simp [insertM, lookupM, hak, haj, ih]

theorem lookupM_isSome_iff {α : Type} (m : List (Nat × α)) (k : Nat) :
    (lookupM m k).isSome ↔ k ∈ keysOf m := by
  induction m with
  | nil => simp [lookupM, keysOf]
  | cons p m ih =>
    obtain ⟨a, b⟩ := p
    by_cases h : a = k
    · subst h; simp [lookupM, keysOf]
    · have h2 : ¬ k = a := fun hh => h hh.symm
      simp [lookupM, keysOf, h, h2, ih]

theorem lookupM_mem {α : Type} {m : List (Nat × α)} {k : Nat} {v : α}
    (h : lookupM m k = some v) : (k, v) ∈ m := by
  induction m with
  | nil => simp [lookupM] at h
  | cons p m ih =>
    obtain ⟨a, b⟩ := p
    by_cases hak : a = k
    · subst hak
      simp [lookupM] at h
      subst h
      exact List.mem_cons_self _ _
    · simp [lookupM, hak] at h
      exact List.mem_cons_of_mem _ (ih h)

theorem mem_keysOf_insertM {α : Type} (m : List (Nat × α)) (k j : Nat) (x : α) :
    j ∈ keysOf (insertM m k x) ↔ j = k ∨ j ∈ keysOf m := by
  rw [← lookupM_isSome_iff, lookupM_insertM, ← lookupM_isSome_iff]
  by_cases h : k = j
  · subst h; simp
  · have h2 : ¬ j = k := fun hh => h hh.symm
    simp [h, h2]

theorem sumVals_cons (p : Nat × Nat) (m : List (Nat × Nat)) :
    sumVals (p :: m) = p.2 + sumVals m := by
  simp [sumVals]

theorem sumVals_insertM {m : List (Nat × Nat)} {k d : Nat}
    (h : lookupM m k = some d) (x : Nat) :
    sumVals (insertM m k x) + d = sumVals m + x := by
  induction m with
  | nil => simp [lookupM] at h
  | cons p m ih =>
    obtain ⟨a, b⟩ := p
    by_cases hak : a = k
    · subst hak
      simp [lookupM] at h
      subst h
      simp [insertM, sumVals_cons]
      omega
    · simp [lookupM, hak] at h
      have hsum := ih h
      simp only [insertM, if_neg hak, sumVals_cons]
      omega

theorem DV_of_lookup {m : List (Nat × Nat)} {k d : Nat}
    (h : lookupM m k = some d) : DV m k = d := by
  simp [DV, h]

theorem DV_insertM (m : List (Nat × Nat)) (k j x : Nat) :
    DV (insertM m k x) j = if k = j then x else DV m j := by
  by_cases h : k = j <;> simp [DV, lookupM_insertM, h]

theorem keysOf_map_fst {α β : Type} (m : List (Nat × α)) (f : Nat × α → β) :
    keysOf (m.map (fun p => (p.1, f p))) = keysOf m := by
  simp [keysOf, List.map_map, Function.comp_def]

/-! Lemmas about the priority-queue pop. -/

theorem popMin_none_iff (q : List (Nat × Nat)) : popMin q = none ↔ q = [] := by
  cases q with
  | nil => simp [popMin]
  | cons x xs =>
    simp only [popMin]
    cases h : popMin xs with
    | none => simp
    | some p =>
      obtain ⟨m, rest⟩ := p
      by_cases hle : x.2 ≤ m.2 <;> simp [hle]

theorem popMin_cases {q : List (Nat × Nat)} {m : Nat × Nat} {rest : List (Nat × Nat)}
    (h : popMin q = some (m, rest)) :
    q.length = rest.length + 1 ∧ m ∈ q ∧ (∀ x ∈ q, x = m ∨ x ∈ rest) ∧
      (∀ x ∈ rest, x ∈ q) := by
  induction q generalizing m rest with
  | nil => simp [popMin] at h
  | cons x xs ih =>
    simp only [popMin] at h
    cases h2 : popMin xs with
    | none =>
      rw [h2] at h
      have h3 := (popMin_none_iff xs).mp h2
      subst h3
      simp only [Option.some.injEq, Prod.mk.injEq] at h
      obtain ⟨h4, h5⟩ := h
      subst h4; subst h5
      refine ⟨by simp, by simp, ?_, by simp⟩
      intro y hy
      rcases List.mem_cons.mp hy with hy2 | hy2
      · exact Or.inl hy2
      · simp at hy2
    | some p =>
      obtain ⟨m2, rest2⟩ := p
      rw [h2] at h
      dsimp only at h
      obtain ⟨hlen, hmem, hcov, hsub⟩ := ih h2
      by_cases hle : x.2 ≤ m2.2
      · rw [if_pos hle] at h
        simp only [Option.some.injEq, Prod.mk.injEq] at h
        obtain ⟨h4, h5⟩ := h
        subst h4; subst h5
        refine ⟨by simp, List.mem_cons_self _ _, ?_, fun y hy => List.mem_cons_of_mem _ hy⟩
        intro y hy
        rcases List.mem_cons.mp hy with hy2 | hy2
        · exact Or.inl hy2
        · exact Or.inr hy2
      · rw [if_neg hle] at h
        simp only [Option.some.injEq, Prod.mk.injEq] at h
        obtain ⟨h4, h5⟩ := h
        subst h4; subst h5
        refine ⟨by simp [hlen], List.mem_cons_of_mem _ hmem, ?_, ?_⟩
        · intro y hy
          rcases List.mem_cons.mp hy with hy2 | hy2
          · exact Or.inr (hy2 ▸ List.mem_cons_self _ _)
          · rcases hcov y hy2 with h6 | h6
            · exact Or.inl h6
            · exact Or.inr (List.mem_cons_of_mem _ h6)
        · intro y hy
          rcases List.mem_cons.mp hy with hy2 | hy2
          · exact hy2 ▸ List.mem_cons_self _ _
          · exact List.mem_cons_of_mem _ (hsub y hy2)

theorem popMin_length {q : List (Nat × Nat)} {m : Nat × Nat} {rest : List (Nat × Nat)}
    (h : popMin q = some (m, rest)) : q.length = rest.length + 1 :=
  (popMin_cases h).1

theorem popMin_mem {q : List (Nat × Nat)} {m : Nat × Nat} {rest : List (Nat × Nat)}
    (h : popMin q = some (m, rest)) : m ∈ q :=
  (popMin_cases h).2.1

theorem popMin_cover {q : List (Nat × Nat)} {m : Nat × Nat} {rest : List (Nat × Nat)}
    (h : popMin q = some (m, rest)) : ∀ x ∈ q, x = m ∨ x ∈ rest :=
  (popMin_cases h).2.2.1

theorem popMin_subset {q : List (Nat × Nat)} {m : Nat × Nat} {rest : List (Nat × Nat)}
    (h : popMin q = some (m, rest)) : ∀ x ∈ rest, x ∈ q :=
  (popMin_cases h).2.2.2

/-! Walks in the unweighted and in the weighted graph: the specification
side of the claims.  A walk is recorded either by its hop count / total
weight alone, or together with its vertex list (in reverse order,
`v :: ... :: s`), which is needed to speak about simple paths. -/

/-- Path from `s` in the unweighted graph, as its reversed vertex list;
`vs.length - 1` is its number of edges. -/
inductive WalkV (adj : Adj) (s : Nat) : Nat → List Nat → Prop
  | nil : WalkV adj s s [s]
  | cons {u : Nat} {vs : List Nat} {v : Nat} :
      WalkV adj s u vs → v ∈ adjOf adj u → WalkV adj s v (v :: vs)

/-- Walk from `s` to `v` using exactly `n` edges in the unweighted graph. -/
inductive WalkN (adj : Adj) (s : Nat) : Nat → Nat → Prop
  | nil : WalkN adj s s 0
  | cons {u n v} : WalkN adj s u n → v ∈ adjOf adj u → WalkN adj s v (n + 1)

/-- Reachability in the unweighted graph. -/
def ReachU (adj : Adj) (s v : Nat) : Prop := ∃ vs, WalkV adj s v vs

/-- Path from `s` in the weighted graph, with its total weight and its
reversed vertex list. -/
inductive WWalkV (adj : WAdj) (s : Nat) : Nat → Nat → List Nat → Prop
  | nil : WWalkV adj s s 0 [s]
  | cons {u c : Nat} {vs : List Nat} {v w : Nat} :
      WWalkV adj s u c vs → (v, w) ∈ wAdjOf adj u → WWalkV adj s v (c + w) (v :: vs)

/-- Walk from `s` to `v` of total weight `c` in the weighted graph. -/
inductive WWalk (adj : WAdj) (s : Nat) : Nat → Nat → Prop
  | nil : WWalk adj s s 0
  | cons {u c v w : Nat} :
      WWalk adj s u c → (v, w) ∈ wAdjOf adj u → WWalk adj s v (c + w)

/-- Reachability in the weighted graph. -/
def ReachW (adj : WAdj) (s v : Nat) : Prop := ∃ c, WWalk adj s v c

/-- Closure invariant of the unweighted adjacency structure: every listed
neighbor is itself a key.  `edges_to_adjacency_list` establishes it. -/
def closedU (adj : Adj) : Prop := ∀ p ∈ adj, ∀ v ∈ p.2, v ∈ keysOf adj

/-- Closure invariant of the weighted adjacency structure. -/
def closedW (adj : WAdj) : Prop := ∀ p ∈ adj, ∀ e ∈ p.2, e.1 ∈ keysOf adj

theorem closedU_adjOf {adj : Adj} (h : closedU adj) {u v : Nat}
    (hv : v ∈ adjOf adj u) : v ∈ keysOf adj := by
  unfold adjOf at hv
  cases hl : lookupM adj u with
  | none => rw [hl] at hv; simp at hv
  | some l =>
    rw [hl] at hv
    exact h (u, l) (lookupM_mem hl) v hv

theorem closedW_wAdjOf {adj : WAdj} (h : closedW adj) {u : Nat} {e : Nat × Nat}
    (he : e ∈ wAdjOf adj u) : e.1 ∈ keysOf adj := by
  unfold wAdjOf at he
  cases hl : lookupM adj u with
  | none => rw [hl] at he; simp at he
  | some l =>
    rw [hl] at he
    exact h (u, l) (lookupM_mem hl) e he

/-- Occurrence of a weight in some neighbor list of the weighted structure. -/
def WMem (adj : WAdj) (w : Nat) : Prop := ∃ p ∈ adj, ∃ e ∈ p.2, e.2 = w

theorem WMem_of_wAdjOf {adj : WAdj} {u : Nat} {e : Nat × Nat}
    (he : e ∈ wAdjOf adj u) : WMem adj e.2 := by
  unfold wAdjOf at he
  cases hl : lookupM adj u with
  | none => rw [hl] at he; simp at he
  | some l =>
    rw [hl] at he
    exact ⟨(u, l), lookupM_mem hl, e, he, rfl⟩

theorem walkV_head {adj : Adj} {s u : Nat} {vs : List Nat} (h : WalkV adj s u vs) :
    ∃ t, vs = u :: t := by
  cases h with
  | nil => exact ⟨[], rfl⟩
  | cons hw hm => exact ⟨_, rfl⟩

theorem wwalkv_head {adj : WAdj} {s u c : Nat} {vs : List Nat}
    (h : WWalkV adj s u c vs) : ∃ t, vs = u :: t := by
  cases h with
  | nil => exact ⟨[], rfl⟩
  | cons hw hm => exact ⟨_, rfl⟩

theorem walkV_to_walkN {adj : Adj} {s v : Nat} {vs : List Nat}
    (h : WalkV adj s v vs) : WalkN adj s v (vs.length - 1) := by
  induction h with
  | nil => simpa using WalkN.nil
  | cons hw hm ih =>
    rename_i u vs2 v2
    obtain ⟨t, ht⟩ := walkV_head hw
    subst ht
    simpa using WalkN.cons ih hm

theorem walkN_to_walkV {adj : Adj} {s v n : Nat} (h : WalkN adj s v n) :
    ∃ vs, WalkV adj s v vs ∧ vs.length = n + 1 := by
  induction h with
  | nil => exact ⟨[s], WalkV.nil, rfl⟩
  | cons hw hm ih =>
    obtain ⟨vs, h1, h2⟩ := ih
    exact ⟨_ :: vs, WalkV.cons h1 hm, by simp [h2]⟩

theorem walkN_iff_walkV (adj : Adj) (s v n : Nat) :
    WalkN adj s v n ↔ ∃ vs, WalkV adj s v vs ∧ vs.length = n + 1 := by
  constructor
  · exact walkN_to_walkV
  · rintro ⟨vs, h1, h2⟩
    have h3 := walkV_to_walkN h1
    rw [h2] at h3
    simpa using h3

theorem reachU_iff_walkN (adj : Adj) (s v : Nat) :
    ReachU adj s v ↔ ∃ n, WalkN adj s v n := by
  constructor
  · rintro ⟨vs, h⟩
    exact ⟨vs.length - 1, walkV_to_walkN h⟩
  · rintro ⟨n, h⟩
    obtain ⟨vs, h1, _⟩ := walkN_to_walkV h
    exact ⟨vs, h1⟩

theorem wwalkv_to_wwalk {adj : WAdj} {s v c : Nat} {vs : List Nat}
    (h : WWalkV adj s v c vs) : WWalk adj s v c := by
  induction h with
  | nil => exact WWalk.nil
  | cons hw hm ih => exact WWalk.cons ih hm

theorem wwalk_to_wwalkv {adj : WAdj} {s v c : Nat} (h : WWalk adj s v c) :
    ∃ vs, WWalkV adj s v c vs := by
  induction h with
  | nil => exact ⟨[s], WWalkV.nil⟩
  | cons hw hm ih =>
    obtain ⟨vs, h1⟩ := ih
    exact ⟨_ :: vs, WWalkV.cons h1 hm⟩

theorem walkN_endpoint {adj : Adj} {s v n : Nat} (hcl : closedU adj)
    (h : WalkN adj s v n) : v = s ∨ v ∈ keysOf adj := by
  cases h with
  | nil => exact Or.inl rfl
  | cons hw hm => exact Or.inr (closedU_adjOf hcl hm)

theorem wwalk_endpoint {adj : WAdj} {s v c : Nat} (hcl : closedW adj)
    (h : WWalk adj s v c) : v = s ∨ v ∈ keysOf adj := by
  cases h with
  | nil => exact Or.inl rfl
  | cons hw hm => exact Or.inr (closedW_wAdjOf hcl (e := (_, _)) hm)

/-! Reduction of walks to simple (duplicate-free) walks, and the bound of
a simple walk weight by the total weight of the adjacency structure. -/

theorem wwalkv_suffix {adj : WAdj} {s u c : Nat} {vs : List Nat}
    (h : WWalkV adj s u c vs) :
    ∀ x ∈ vs, ∃ c2 vs2, WWalkV adj s x c2 vs2 ∧ c2 ≤ c ∧ vs2.Sublist vs := by
  induction h with
  | nil =>
    intro x hx
    simp at hx
    subst hx
    exact ⟨0, [_], WWalkV.nil, le_refl _, List.Sublist.refl _⟩
  | cons hw hm ih =>
    intro x hx
    rcases List.mem_cons.mp hx with h1 | h1
    · subst h1
      exact ⟨_, _, WWalkV.cons hw hm, le_refl _, List.Sublist.refl _⟩
    · obtain ⟨c2, vs2, h2, h3, h4⟩ := ih x h1
      exact ⟨c2, vs2, h2, le_trans h3 (Nat.le_add_right _ _), h4.cons _⟩

theorem wwalkv_simple {adj : WAdj} {s v c : Nat} {vs : List Nat}
    (h : WWalkV adj s v c vs) :
    ∃ c2 vs2, WWalkV adj s v c2 vs2 ∧ c2 ≤ c ∧ vs2.Nodup ∧ ∀ x ∈ vs2, x ∈ vs := by
  induction h with
  | nil => exact ⟨0, [s], WWalkV.nil, le_refl _, by simp, by simp⟩
  | cons hw hm ih =>
    rename_i u c2 vs2 v2 w
    obtain ⟨c3, vs3, h2, h3, h4, h5⟩ := ih
    by_cases hv : v2 ∈ vs3
    · obtain ⟨c4, vs4, h6, h7, h8⟩ := wwalkv_suffix h2 v2 hv
      exact ⟨c4, vs4, h6, le_trans h7 (le_trans h3 (Nat.le_add_right _ _)),
        h4.sublist h8, fun x hx => List.mem_cons_of_mem _ (h5 x (h8.subset hx))⟩
    · refine ⟨c3 + w, v2 :: vs3, WWalkV.cons h2 hm, Nat.add_le_add_right h3 _, ?_, ?_⟩
      · simp [List.nodup_cons, hv, h4]
      · intro x hx
        rcases List.mem_cons.mp hx with h6 | h6
        · exact h6 ▸ List.mem_cons_self _ _
        · exact List.mem_cons_of_mem _ (h5 x h6)

/-- Sum of the weights of one neighbor list. -/
def wsum (l : List (Nat × Nat)) : Nat := (l.map (fun e => e.2)).sum

/-- Total weight of every entry of the weighted adjacency structure. -/
def totalW (adj : WAdj) : Nat := (adj.map (fun p => wsum p.2)).sum

/-- Weight leaving one vertex. -/
def srcW (adj : WAdj) (u : Nat) : Nat := wsum (wAdjOf adj u)

/-- Weight leaving a list of vertices. -/
def srcSum (adj : WAdj) (l : List Nat) : Nat := (l.map (srcW adj)).sum

theorem mem_wsum {l : List (Nat × Nat)} {e : Nat × Nat} (he : e ∈ l) : e.2 ≤ wsum l := by
  induction l with
  | nil => simp at he
  | cons x xs ih =>
    rcases List.mem_cons.mp he with h | h
    · subst h
      simp [wsum]
    · have := ih h
      simp [wsum] at this ⊢
      omega

theorem wwalkv_le_srcSum {adj : WAdj} {s u c : Nat} {vs : List Nat}
    (h : WWalkV adj s u c vs) : c ≤ srcSum adj vs.tail := by
  induction h with
  | nil => simp [srcSum]
  | cons hw hm ih =>
    rename_i u2 c2 vs2 v2 w
    obtain ⟨t, ht⟩ := wwalkv_head hw
    subst ht
    have hw2 : w ≤ srcW adj u2 := mem_wsum (e := (v2, w)) hm
    simp only [List.tail_cons, srcSum, List.map_cons, List.sum_cons] at ih ⊢
    omega

theorem srcSum_le_totalW (adj : WAdj) : ∀ {l : List Nat}, l.Nodup →
    srcSum adj l ≤ totalW adj := by
  induction adj with
  | nil =>
    intro l _
    have h0 : ∀ u, srcW ([] : WAdj) u = 0 := by
      intro u
      simp [srcW, wAdjOf, lookupM, wsum]
    have h1 : List.map (srcW ([] : WAdj)) l = List.map (fun _ => 0) l :=
      List.map_congr_left (fun u _ => h0 u)
    simp [srcSum, totalW, h1]
  | cons p adj ih =>
    obtain ⟨k, el⟩ := p
    intro l hnd
    have hsrc : ∀ u, srcW ((k, el) :: adj) u = if k = u then wsum el else srcW adj u := by
      intro u
      by_cases h : k = u <;> simp [srcW, wAdjOf, lookupM, h]
    have htot : totalW ((k, el) :: adj) = wsum el + totalW adj := by
      simp [totalW]
    by_cases hk : k ∈ l
    · have hperm : l.Perm (k :: l.erase k) := List.perm_cons_erase hk
      have hsum : srcSum ((k, el) :: adj) l = srcSum ((k, el) :: adj) (k :: l.erase k) := by
        unfold srcSum
        exact (hperm.map _).sum_eq
      have hne : ∀ u ∈ l.erase k, srcW ((k, el) :: adj) u = srcW adj u := by
        intro u hu
        have : u ≠ k := by
          intro he
          subst he
          exact (hnd.not_mem_erase) hu
        rw [hsrc u, if_neg (fun he => this he.symm)]
      have herase : srcSum ((k, el) :: adj) (l.erase k) = srcSum adj (l.erase k) := by
        unfold srcSum
        rw [List.map_congr_left hne]
      have : srcSum ((k, el) :: adj) (k :: l.erase k) =
          wsum el + srcSum adj (l.erase k) := by
        simp only [srcSum, List.map_cons, List.sum_cons, hsrc k, if_pos rfl]
        rw [← srcSum, ← srcSum, herase]
        simp
      rw [hsum, this, htot]
      exact Nat.add_le_add_left (ih (hnd.erase k)) _
    · have hne : ∀ u ∈ l, srcW ((k, el) :: adj) u = srcW adj u := by
        intro u hu
        have : ¬ k = u := by
          intro he
          subst he
          exact hk hu
        rw [hsrc u, if_neg this]
      have : srcSum ((k, el) :: adj) l = srcSum adj l := by
        unfold srcSum
        rw [List.map_congr_left hne]
      rw [this, htot]
      exact le_trans (ih hnd) (Nat.le_add_left _ _)

theorem wwalkv_nodup_le_totalW {adj : WAdj} {s u c : Nat} {vs : List Nat}
    (h : WWalkV adj s u c vs) (hnd : vs.Nodup) : c ≤ totalW adj :=
  le_trans (wwalkv_le_srcSum h)
    (srcSum_le_totalW adj (hnd.sublist (List.tail_sublist vs)))

/-- Every weighted walk has a simple walk with the same endpoints and no
larger weight; hence every reachable vertex is reachable within the total
weight of the structure. -/
theorem wwalk_le_totalW {adj : WAdj} {s v c : Nat} (h : WWalk adj s v c) :
    ∃ c2, WWalk adj s v c2 ∧ c2 ≤ c ∧ c2 ≤ totalW adj := by
  obtain ⟨vs, h1⟩ := wwalk_to_wwalkv h
  obtain ⟨c2, vs2, h2, h3, h4, _⟩ := wwalkv_simple h1
  exact ⟨c2, wwalkv_to_wwalk h2, h3, wwalkv_nodup_le_totalW h2 h4⟩

/-! Transfer between the unweighted graph and its unit-weight derivation. -/

theorem lookupM_map_val {α β : Type} (m : List (Nat × α)) (g : α → β) (k : Nat) :
    lookupM (m.map (fun p => (p.1, g p.2))) k = (lookupM m k).map g := by
  induction m with
  | nil => simp [lookupM]
  | cons p m ih =>
    obtain ⟨a, b⟩ := p
    by_cases h : a = k <;> simp [lookupM, h, ih]

theorem wAdjOf_derived (adj : Adj) (u : Nat) :
    wAdjOf (edges_to_weighted_adjacency_list adj) u =
      (adjOf adj u).map (fun a => (a, 1)) := by
  unfold wAdjOf adjOf edges_to_weighted_adjacency_list
  rw [lookupM_map_val]
  cases lookupM adj u <;> simp

theorem keysOf_derived (adj : Adj) :
    keysOf (edges_to_weighted_adjacency_list adj) = keysOf adj := by
  unfold edges_to_weighted_adjacency_list
  exact keysOf_map_fst adj _

theorem closedW_derived {adj : Adj} (h : closedU adj) :
    closedW (edges_to_weighted_adjacency_list adj) := by
  intro p hp e he
  unfold edges_to_weighted_adjacency_list at hp
  rw [List.mem_map] at hp
  obtain ⟨q, hq, hpq⟩ := hp
  subst hpq
  simp only [List.mem_map] at he
  obtain ⟨a, ha, hae⟩ := he
  rw [keysOf_derived]
  rw [← hae]
  exact h q hq a ha

theorem WMem_derived {adj : Adj} {w : Nat}
    (h : WMem (edges_to_weighted_adjacency_list adj) w) : w = 1 := by
  obtain ⟨p, hp, e, he, hw⟩ := h
  unfold edges_to_weighted_adjacency_list at hp
  rw [List.mem_map] at hp
  obtain ⟨q, hq, hpq⟩ := hp
  subst hpq
  simp only [List.mem_map] at he
  obtain ⟨a, ha, hae⟩ := he
  rw [← hw, ← hae]

theorem wwalk_derived_iff (adj : Adj) (s v c : Nat) :
    WWalk (edges_to_weighted_adjacency_list adj) s v c ↔ WalkN adj s v c := by
  constructor
  · intro h
    induction h with
    | nil => exact WalkN.nil
    | cons hw hm ih =>
      rw [wAdjOf_derived] at hm
      rw [List.mem_map] at hm
      obtain ⟨a, ha, he⟩ := hm
      obtain ⟨he1, he2⟩ := Prod.mk.injEq .. ▸ he
      subst he2
      exact WalkN.cons ih (he1 ▸ ha)
  · intro h
    induction h with
    | nil => exact WWalk.nil
    | cons hw hm ih =>
      exact WWalk.cons ih (by rw [wAdjOf_derived]; exact List.mem_map_of_mem _ hm)

/-! Symmetric graphs: walk reversal. -/

theorem walkN_front {adj : Adj} {s t n : Nat} (h : WalkN adj s t n) :
    ∀ s2, s ∈ adjOf adj s2 → WalkN adj s2 t (n + 1) := by
  induction h with
  | nil => intro s2 hs; exact WalkN.cons WalkN.nil hs
  | cons hw hm ih => intro s2 hs; exact WalkN.cons (ih s2 hs) hm

theorem walkN_symm {adj : Adj} (hsym : ∀ a b, a ∈ adjOf adj b → b ∈ adjOf adj a)
    {u v n : Nat} (h : WalkN adj u v n) : WalkN adj v u n := by
  induction h with
  | nil => exact WalkN.nil
  | cons hw hm ih => exact walkN_front ih _ (hsym _ _ hm)

/-- A duplicate-free list of `u32` values has at most `2^32` elements. -/
theorem nodup_length_le {l : List Nat} (hnd : l.Nodup) {n : Nat}
    (hlt : ∀ x ∈ l, x < n) : l.length ≤ n := by
  have h1 : l.toFinset ⊆ Finset.range n := by
    intro x hx
    simp only [List.mem_toFinset] at hx
    simpa using hlt x hx
  have h2 := Finset.card_le_card h1
  rwa [List.toFinset_card_of_nodup hnd, Finset.card_range] at h2

/-- A nonempty set of naturals has a least element. -/
theorem exists_least {P : Nat → Prop} (h : ∃ n, P n) :
    ∃ m, P m ∧ ∀ k, P k → m ≤ k := by
  classical
  exact ⟨Nat.find h, Nat.find_spec h, fun k hk => Nat.find_le hk⟩

/-! Properties of the graph builder `edges_to_adjacency_list`. -/

theorem adjOf_adjPush (m : Adj) (a b k : Nat) :
    adjOf (adjPush m a b) k = adjOf m k ++ (if a = k then [b] else []) := by
  unfold adjPush
  unfold adjOf
  rw [lookupM_insertM]
  by_cases h : a = k
  · subst h
    simp [adjOf]
  · simp [h]

theorem adjOf_build_aux (E : List (Nat × Nat)) (m : Adj) (k : Nat) :
    adjOf (E.foldl (fun m e => adjPush (adjPush m e.1 e.2) e.2 e.1) m) k =
      adjOf m k ++ (E.map (fun e =>
        (if e.1 = k then [e.2] else []) ++ (if e.2 = k then [e.1] else []))).flatten := by
  induction E generalizing m with
  | nil => simp
  | cons e E ih =>
    simp only [List.foldl_cons, List.map_cons, List.flatten]
    rw [ih, adjOf_adjPush, adjOf_adjPush]
    simp [List.append_assoc]

theorem adjOf_build (E : List (Nat × Nat)) (k : Nat) :
    adjOf (edges_to_adjacency_list E) k =
      (E.map (fun e =>
        (if e.1 = k then [e.2] else []) ++ (if e.2 = k then [e.1] else []))).flatten := by
  have h := adjOf_build_aux E [] k
  simpa [adjOf, lookupM] using h

theorem mem_adjOf_build {E : List (Nat × Nat)} {k v : Nat} :
    v ∈ adjOf (edges_to_adjacency_list E) k ↔ (k, v) ∈ E ∨ (v, k) ∈ E := by
  rw [adjOf_build]
  constructor
  · intro hv
    rw [List.mem_flatten] at hv
    obtain ⟨l, hl, hvl⟩ := hv
    rw [List.mem_map] at hl
    obtain ⟨e, he, rfl⟩ := hl
    obtain ⟨a, b⟩ := e
    rcases List.mem_append.mp hvl with h | h
    · by_cases h1 : a = k
      · rw [if_pos h1] at h
        simp at h
        subst h
        subst h1
        exact Or.inl he
      · rw [if_neg h1] at h
        simp at h
    · by_cases h1 : b = k
      · rw [if_pos h1] at h
        simp at h
        subst h
        subst h1
        exact Or.inr he
      · rw [if_neg h1] at h
        simp at h
  · intro hv
    rw [List.mem_flatten]
    rcases hv with h | h
    · refine ⟨_, List.mem_map_of_mem _ h, ?_⟩
      simp
    · refine ⟨_, List.mem_map_of_mem _ h, ?_⟩
      simp

theorem keys_build_aux (E : List (Nat × Nat)) (m : Adj) (k : Nat) :
    k ∈ keysOf (E.foldl (fun m e => adjPush (adjPush m e.1 e.2) e.2 e.1) m) ↔
      k ∈ keysOf m ∨ ∃ e ∈ E, e.1 = k ∨ e.2 = k := by
  induction E generalizing m with
  | nil => simp
  | cons e E ih =>
    simp only [List.foldl_cons]
    rw [ih]
    unfold adjPush
    rw [mem_keysOf_insertM, mem_keysOf_insertM]
    simp only [List.mem_cons]
    constructor
    · intro h
      rcases h with (h | h | h) | ⟨e2, he2, h⟩
      · exact Or.inr ⟨e, Or.inl rfl, Or.inr h.symm⟩
      · exact Or.inr ⟨e, Or.inl rfl, Or.inl h.symm⟩
      · exact Or.inl h
      · exact Or.inr ⟨e2, Or.inr he2, h⟩
    · intro h
      rcases h with h | ⟨e2, he2, h⟩
      · exact Or.inl (Or.inr (Or.inr h))
      · rcases he2 with he2 | he2
        · subst he2
          rcases h with h | h
          · exact Or.inl (Or.inr (Or.inl h.symm))
          · exact Or.inl (Or.inl h.symm)
        · exact Or.inr ⟨e2, he2, h⟩

theorem keys_build_iff {E : List (Nat × Nat)} {k : Nat} :
    k ∈ keysOf (edges_to_adjacency_list E) ↔ ∃ e ∈ E, e.1 = k ∨ e.2 = k := by
  have h := keys_build_aux E [] k
  simpa [keysOf] using h

theorem keysOf_insertM_eq {α : Type} (m : List (Nat × α)) (k : Nat) (x : α) :
    keysOf (insertM m k x) =
      if k ∈ keysOf m then keysOf m else keysOf m ++ [k] := by
  induction m with
  | nil => simp [insertM, keysOf]
  | cons p m ih =>
    obtain ⟨a, b⟩ := p
    by_cases h : a = k
    · subst h
      simp [insertM, keysOf]
    · have h2 : ¬ k = a := fun hh => h hh.symm
      simp only [insertM, if_neg h, keysOf, List.map_cons, List.mem_cons, h2, false_or]
      rw [← keysOf, ← keysOf, ih]
      by_cases h3 : k ∈ keysOf m
      · simp [h3]
      · simp [h3]

theorem nodup_keys_insertM {α : Type} {m : List (Nat × α)}
    (h : (keysOf m).Nodup) (k : Nat) (x : α) : (keysOf (insertM m k x)).Nodup := by
  rw [keysOf_insertM_eq]
  by_cases h2 : k ∈ keysOf m
  · simpa [h2] using h
  · rw [if_neg h2]
    simp [List.nodup_append, h, h2]

theorem nodup_keys_build (E : List (Nat × Nat)) :
    (keysOf (edges_to_adjacency_list E)).Nodup := by
  suffices h : ∀ m : Adj, (keysOf m).Nodup →
      (keysOf (E.foldl (fun m e => adjPush (adjPush m e.1 e.2) e.2 e.1) m)).Nodup by
    exact h [] (by simp [keysOf])
  induction E with
  | nil => intro m hm; simpa using hm
  | cons e E ih =>
    intro m hm
    simp only [List.foldl_cons]
    exact ih _ (nodup_keys_insertM (nodup_keys_insertM hm _ _) _ _)

theorem lookup_of_mem_nodup {α : Type} {m : List (Nat × α)}
    (hnd : (keysOf m).Nodup) {p : Nat × α} (hp : p ∈ m) :
    lookupM m p.1 = some p.2 := by
  induction m with
  | nil => simp at hp
  | cons q m ih =>
    obtain ⟨a, b⟩ := q
    have hnd2 : a ∉ keysOf m ∧ (keysOf m).Nodup := by
      simpa [keysOf] using hnd
    rcases List.mem_cons.mp hp with h | h
    · subst h
      simp [lookupM]
    · have hp1 : p.1 ∈ keysOf m := List.mem_map_of_mem _ h
      have hne : ¬ a = p.1 := fun he => hnd2.1 (he ▸ hp1)
      simp only [lookupM, if_neg hne]
      exact ih hnd2.2 h

theorem closedU_build (E : List (Nat × Nat)) :
    closedU (edges_to_adjacency_list E) := by
  intro p hp v hv
  have h1 : lookupM (edges_to_adjacency_list E) p.1 = some p.2 :=
    lookup_of_mem_nodup (nodup_keys_build E) hp
  have h2 : v ∈ adjOf (edges_to_adjacency_list E) p.1 := by
    simp [adjOf, h1, hv]
  rw [mem_adjOf_build] at h2
  rw [keys_build_iff]
  rcases h2 with h | h
  · exact ⟨_, h, Or.inr rfl⟩
  · exact ⟨_, h, Or.inl rfl⟩

theorem symm_build (E : List (Nat × Nat)) :
    ∀ a b, a ∈ adjOf (edges_to_adjacency_list E) b →
      b ∈ adjOf (edges_to_adjacency_list E) a := by
  intro a b h
  rw [mem_adjOf_build] at h ⊢
  tauto

/-! BFS engine: loop invariants and the master correctness theorem. -/

/-- Core state invariant of the BFS loop, about the distance table and the
queue: the table is defined exactly on the keys and the start vertex, the
start distance is `0`, all distances are at most the sentinel, queued
vertices have a finite recorded distance, and every finite recorded
distance is realized by a walk of that many edges. -/
structure BCore (adj : Adj) (s : Nat) (dists : List (Nat × Nat)) (q : List Nat) : Prop where
  dom : ∀ k, (lookupM dists k).isSome ↔ (k ∈ keysOf adj ∨ k = s)
  start : lookupM dists s = some 0
  vmax : ∀ k d, lookupM dists k = some d → d ≤ U32MAX
  qinv : ∀ x ∈ q, ∃ d, lookupM dists x = some d ∧ d < U32MAX
  real : ∀ k d, lookupM dists k = some d → d = U32MAX ∨ WalkN adj s k d

/-- Full BFS loop invariant: additionally, every edge is either relaxed or
its source is still queued. -/
structure BInv (adj : Adj) (s : Nat) (dists : List (Nat × Nat)) (q : List Nat)
    extends BCore adj s dists q : Prop where
  edge : ∀ u, (u ∈ keysOf adj ∨ u = s) → ∀ v ∈ adjOf adj u,
    DV dists v ≤ DV dists u + 1 ∨ u ∈ q

theorem DV_le_MAX {dists : List (Nat × Nat)}
    (hv : ∀ k d, lookupM dists k = some d → d ≤ U32MAX) (k : Nat) :
    DV dists k ≤ U32MAX := by
  unfold DV
  cases h : lookupM dists k with
  | none => simp
  | some d => simpa using hv k d h

theorem lookupM_mapMax {α : Type} (adj : List (Nat × α)) (k : Nat) :
    lookupM (adj.map (fun p => (p.1, U32MAX))) k =
      (lookupM adj k).map (fun _ => U32MAX) := by
  induction adj with
  | nil => simp [lookupM]
  | cons p m ih =>
    obtain ⟨a, b⟩ := p
    by_cases h : a = k <;> simp [lookupM, h, ih]

/-- Specification of the inner relaxation loop of BFS. -/
theorem bfsRelax_spec {adj : Adj} {s curr dc : Nat} (hcl : closedU adj)
    (hwalk : WalkN adj s curr dc) (hdc : dc < U32MAX) :
    ∀ (ns : List Nat) (dists : List (Nat × Nat)) (q : List Nat),
      (∀ v ∈ ns, v ∈ adjOf adj curr) →
      BCore adj s dists q →
      lookupM dists curr = some dc →
      ∃ dists2 q2, bfsRelax curr dists q ns = some (dists2, q2) ∧
        BCore adj s dists2 q2 ∧
        lookupM dists2 curr = some dc ∧
        (∀ v ∈ ns, DV dists2 v ≤ dc + 1) ∧
        (∀ k, DV dists2 k ≤ DV dists k) ∧
        (∀ k, DV dists2 k < DV dists k → k ∈ q2) ∧
        (∀ x ∈ q, x ∈ q2) ∧
        sumVals dists2 + q2.length ≤ sumVals dists + q.length := by
  intro ns
  induction ns with
  | nil =>
    intro dists q _ hinv hc
    exact ⟨dists, q, rfl, hinv, hc, by simp, fun k => le_refl _,
      fun k h => absurd h (lt_irrefl _), fun x hx => hx, le_refl _⟩
  | cons v ns ih =>
    intro dists q hns hinv hc
    have hv : v ∈ adjOf adj curr := hns v (List.mem_cons_self _ _)
    have hns2 : ∀ x ∈ ns, x ∈ adjOf adj curr := fun x hx => hns x (List.mem_cons_of_mem _ hx)
    have hvkey : v ∈ keysOf adj := closedU_adjOf hcl hv
    have hvsome : (lookupM dists v).isSome := (hinv.dom v).mpr (Or.inl hvkey)
    obtain ⟨dv, hdv⟩ := Option.isSome_iff_exists.mp hvsome
    have hmod : (dc + 1) % U32MOD = dc + 1 := by
      apply Nat.mod_eq_of_lt
      unfold U32MAX at hdc
      unfold U32MOD
      omega
    by_cases hrel : (dc + 1) % U32MOD < dv
    · -- relaxation: insert the new distance and enqueue the neighbor
      have hstep : bfsRelax curr dists q (v :: ns) =
          bfsRelax curr (insertM dists v ((dc + 1) % U32MOD)) (q ++ [v]) ns := by
        simp only [bfsRelax, hc, hdv]
        rw [if_pos hrel]
      rw [hmod] at hrel
      have hvs : ¬ v = s := by
        intro he
        rw [he, hinv.start] at hdv
        simp at hdv
        omega
      have hvcurr : ¬ v = curr := by
        intro he
        rw [he, hc] at hdv
        simp at hdv
        omega
      have hdvmax : dv ≤ U32MAX := hinv.vmax v dv hdv
      set dists1 := insertM dists v ((dc + 1) % U32MOD) with hdists1
      have hlook1 : ∀ k, lookupM dists1 k =
          if v = k then some (dc + 1) else lookupM dists k := by
        intro k
        rw [hdists1, lookupM_insertM, hmod]
      have hcore1 : BCore adj s dists1 (q ++ [v]) := by
        refine ⟨?_, ?_, ?_, ?_, ?_⟩
        · intro k
          rw [hlook1]
          by_cases h : v = k
          · subst h
            simp [hvkey]
          · simp [h, hinv.dom k]
        · rw [hlook1, if_neg hvs]
          exact hinv.start
        · intro k d hkd
          rw [hlook1] at hkd
          by_cases h : v = k
          · rw [if_pos h] at hkd
            simp at hkd
            omega
          · rw [if_neg h] at hkd
            exact hinv.vmax k d hkd
        · intro x hx
          rcases List.mem_append.mp hx with hx | hx
          · obtain ⟨d, hd, hdlt⟩ := hinv.qinv x hx
            by_cases h : v = x
            · refine ⟨dc + 1, ?_, by omega⟩
              rw [hlook1, if_pos h]
            · exact ⟨d, by rw [hlook1, if_neg h]; exact hd, hdlt⟩
          · simp at hx
            subst hx
            exact ⟨dc + 1, by rw [hlook1, if_pos rfl], by omega⟩
        · intro k d hkd
          rw [hlook1] at hkd
          by_cases h : v = k
          · rw [if_pos h] at hkd
            simp at hkd
            subst h
            exact Or.inr (hkd ▸ WalkN.cons hwalk hv)
          · rw [if_neg h] at hkd
            exact hinv.real k d hkd
      have hc1 : lookupM dists1 curr = some dc := by
        rw [hlook1, if_neg hvcurr]
        exact hc
      obtain ⟨dists2, q2, hrun, hcore2, hc2, hproc, hmono, hpush, hqmem, hfuel⟩ :=
        ih dists1 (q ++ [v]) hns2 hcore1 hc1
      refine ⟨dists2, q2, by rw [hstep]; exact hrun, hcore2, hc2, ?_, ?_, ?_, ?_, ?_⟩
      · intro x hx
        rcases List.mem_cons.mp hx with hx | hx
        · rw [hx]
          have h1 : DV dists1 v = dc + 1 := by
            rw [DV, hlook1, if_pos rfl]
            rfl
          exact le_trans (hmono v) (le_of_eq h1)
        · exact hproc x hx
      · intro k
        refine le_trans (hmono k) ?_
        by_cases h : v = k
        · subst h
          have h1 : DV dists1 v = dc + 1 := by
            rw [DV, hlook1, if_pos rfl]
            rfl
          have h2 : DV dists v = dv := by
            rw [DV, hdv]
            rfl
          omega
        · have h1 : DV dists1 k = DV dists k := by
            rw [DV, hlook1, if_neg h]
            rfl
          exact le_of_eq h1
      · intro k hk
        by_cases h : DV dists2 k < DV dists1 k
        · exact hpush k h
        · have h1 : DV dists2 k = DV dists1 k := le_antisymm (hmono k) (not_lt.mp h)
          have h2 : DV dists1 k < DV dists k := lt_of_le_of_lt (le_of_eq h1.symm) hk
          have h3 : k = v := by
            by_contra h4
            rw [DV, hlook1, if_neg (fun he => h4 he.symm)] at h2
            exact lt_irrefl _ h2
          exact hqmem k (by simp [h3])
      · intro x hx
        exact hqmem x (List.mem_append.mpr (Or.inl hx))
      · have hins := sumVals_insertM hdv ((dc + 1) % U32MOD)
        have hfuel3 := hfuel
        rw [hdists1] at hfuel3
        have hlen : (q ++ [v]).length = q.length + 1 := by simp
        rw [hlen] at hfuel3
        omega
    · -- no relaxation: the recorded distance is already small enough
      have hstep : bfsRelax curr dists q (v :: ns) = bfsRelax curr dists q ns := by
        simp only [bfsRelax, hc, hdv]
        rw [if_neg hrel]
      rw [hmod] at hrel
      obtain ⟨dists2, q2, hrun, hcore2, hc2, hproc, hmono, hpush, hqmem, hfuel⟩ :=
        ih dists q hns2 hinv hc
      refine ⟨dists2, q2, by rw [hstep]; exact hrun, hcore2, hc2, ?_, hmono, hpush, hqmem, hfuel⟩
      intro x hx
      rcases List.mem_cons.mp hx with hx | hx
      · subst hx
        calc DV dists2 x ≤ DV dists x := hmono x
        _ = dv := by rw [DV, hdv]; rfl
        _ ≤ dc + 1 := not_lt.mp hrel
      · exact hproc x hx

/-- Conclusions available about the final BFS table. -/
structure BFinal (adj : Adj) (s : Nat) (t : List (Nat × Nat)) : Prop where
  dom : ∀ k, (lookupM t k).isSome ↔ (k ∈ keysOf adj ∨ k = s)
  start : lookupM t s = some 0
  vmax : ∀ k d, lookupM t k = some d → d ≤ U32MAX
  real : ∀ k d, lookupM t k = some d → d = U32MAX ∨ WalkN adj s k d
  edge : ∀ u, (u ∈ keysOf adj ∨ u = s) → ∀ v ∈ adjOf adj u, DV t v ≤ DV t u + 1

theorem bfsLoop_spec {adj : Adj} {s : Nat} (hcl : closedU adj) :
    ∀ (fuel : Nat) (dists : List (Nat × Nat)) (q : List Nat),
      BInv adj s dists q →
      sumVals dists + q.length ≤ fuel →
      ∃ t, bfsLoop adj fuel dists q = some t ∧ BFinal adj s t := by
  intro fuel
  induction fuel with
  | zero =>
    intro dists q hinv hfuel
    have hq : q = [] := by
      cases q with
      | nil => rfl
      | cons a as => simp at hfuel
    subst hq
    refine ⟨dists, rfl, hinv.dom, hinv.start, hinv.vmax, hinv.real, ?_⟩
    intro u hu v hv
    rcases hinv.edge u hu v hv with h | h
    · exact h
    · simp at h
  | succ fuel ih =>
    intro dists q hinv hfuel
    cases q with
    | nil =>
      refine ⟨dists, rfl, hinv.dom, hinv.start, hinv.vmax, hinv.real, ?_⟩
      intro u hu v hv
      rcases hinv.edge u hu v hv with h | h
      · exact h
      · simp at h
    | cons curr qtail =>
      obtain ⟨dc, hdc, hdcmax⟩ := hinv.qinv curr (List.mem_cons_self _ _)
      have hwalk : WalkN adj s curr dc := by
        rcases hinv.real curr dc hdc with h | h
        · omega
        · exact h
      have hcore : BCore adj s dists qtail := by
        refine ⟨hinv.dom, hinv.start, hinv.vmax, ?_, hinv.real⟩
        intro x hx
        exact hinv.qinv x (List.mem_cons_of_mem _ hx)
      obtain ⟨dists2, q2, hrun, hcore2, hc2, hproc, hmono, hpush, hqmem, hfuel2⟩ :=
        bfsRelax_spec hcl hwalk hdcmax (adjOf adj curr) dists qtail
          (fun x hx => hx) hcore hdc
      have hinv2 : BInv adj s dists2 q2 := by
        refine ⟨hcore2, ?_⟩
        intro u hu v hv
        by_cases hucurr : u = curr
        · subst hucurr
          left
          have h1 : DV dists2 v ≤ dc + 1 := hproc v hv
          have h2 : DV dists2 u = dc := by rw [DV, hc2]; rfl
          omega
        · by_cases hch : DV dists2 u < DV dists u
          · exact Or.inr (hpush u hch)
          · have hueq : DV dists2 u = DV dists u :=
              le_antisymm (hmono u) (not_lt.mp hch)
            rcases hinv.edge u hu v hv with h | h
            · left
              calc DV dists2 v ≤ DV dists v := hmono v
              _ ≤ DV dists u + 1 := h
              _ = DV dists2 u + 1 := by rw [hueq]
            · rcases List.mem_cons.mp h with h2 | h2
              · exact absurd h2 hucurr
              · exact Or.inr (hqmem u h2)
      have hstep : bfsLoop adj (fuel + 1) dists (curr :: qtail) =
          bfsLoop adj fuel dists2 q2 := by
        simp only [bfsLoop, hrun]
      rw [hstep]
      apply ih dists2 q2 hinv2
      have : (curr :: qtail).length = qtail.length + 1 := by simp
      omega

/-- Master theorem for `breadth_first_search` on a neighbor-closed
adjacency structure. -/
theorem breadth_first_search_spec {adj : Adj} (hcl : closedU adj) (s : Nat) :
    ∃ t, breadth_first_search adj s = some t ∧ BFinal adj s t := by
  have hinit : ∀ k, lookupM (init_hashmap adj s) k =
      if s = k then some 0 else (lookupM adj k).map (fun _ => U32MAX) := by
    intro k
    unfold init_hashmap
    rw [lookupM_insertM, lookupM_mapMax]
  have hinv : BInv adj s (init_hashmap adj s) [s] := by
    refine ⟨⟨?_, ?_, ?_, ?_, ?_⟩, ?_⟩
    · intro k
      rw [hinit]
      by_cases h : s = k
      · subst h
        simp
      · rw [if_neg h]
        rw [← lookupM_isSome_iff]
        have h2 : ¬ k = s := fun hh => h hh.symm
        cases lookupM adj k <;> simp [h2]
    · rw [hinit, if_pos rfl]
    · intro k d hkd
      rw [hinit] at hkd
      by_cases h : s = k
      · rw [if_pos h] at hkd
        simp at hkd
        omega
      · rw [if_neg h] at hkd
        simp at hkd
        exact le_of_eq hkd.2.symm
    · intro x hx
      simp at hx
      subst hx
      refine ⟨0, by rw [hinit, if_pos rfl], ?_⟩
      unfold U32MAX
      omega
    · intro k d hkd
      rw [hinit] at hkd
      by_cases h : s = k
      · rw [if_pos h] at hkd
        simp at hkd
        subst h
        exact Or.inr (hkd ▸ WalkN.nil)
      · rw [if_neg h] at hkd
        simp at hkd
        exact Or.inl hkd.2.symm
    · intro u hu v hv
      by_cases h : u = s
      · exact Or.inr (by simp [h])
      · left
        have h1 : DV (init_hashmap adj s) u = U32MAX := by
          rw [DV, hinit, if_neg (fun he => h he.symm)]
          cases lookupM adj u <;> simp
        have h2 : DV (init_hashmap adj s) v ≤ U32MAX := by
          rw [DV, hinit]
          by_cases h3 : s = v
          · rw [if_pos h3]
            simp
          · rw [if_neg h3]
            cases lookupM adj v <;> simp
        omega
  obtain ⟨t, hrun, hfin⟩ := bfsLoop_spec hcl (sumVals (init_hashmap adj s) + 1)
    (init_hashmap adj s) [s] hinv (by simp)
  exact ⟨t, hrun, hfin⟩

/-- The final BFS table lower-bounds every walk: no edge is left relaxable. -/
theorem bfinal_le_walk {adj : Adj} {s : Nat} {t : List (Nat × Nat)} (hcl : closedU adj)
    (hf : BFinal adj s t) {v n : Nat} (h : WalkN adj s v n) : DV t v ≤ n := by
  induction h with
  | nil =>
    have h1 : DV t s = 0 := by
      rw [DV, hf.start]
      rfl
    omega
  | cons hw hm ih =>
    rename_i u m v2
    have hu : u ∈ keysOf adj ∨ u = s := by
      rcases walkN_endpoint hcl hw with h1 | h1
      · exact Or.inr h1
      · exact Or.inl h1
    have hedge := hf.edge u hu v2 hm
    omega

/-! Dijkstra engine: loop invariants and the master correctness theorem.

The key execution invariant ties every finite recorded distance to a
`SimGood` walk: a simple (duplicate-free) walk whose every prefix ending
at a vertex `x` costs at least the currently recorded distance of `x`.
Simplicity bounds every recorded cost by `totalW adj`, which is what makes
the `u32` cost additions exact under the no-overflow hypothesis. -/

/-- Simple prefix-dominated walk with respect to the current distance
assignment `D`. -/
inductive SimGood (adj : WAdj) (D : Nat → Nat) (s : Nat) : Nat → Nat → List Nat → Prop
  | nil : D s = 0 → SimGood adj D s s 0 [s]
  | cons {u c : Nat} {vs : List Nat} {v w : Nat} :
      SimGood adj D s u c vs → (v, w) ∈ wAdjOf adj u → v ∉ vs → D v ≤ c + w →
      SimGood adj D s v (c + w) (v :: vs)

theorem sg_mono {adj : WAdj} {D D2 : Nat → Nat} {s : Nat}
    (hle : ∀ x, D2 x ≤ D x) {v c : Nat} {vs : List Nat}
    (h : SimGood adj D s v c vs) : SimGood adj D2 s v c vs := by
  induction h with
  | nil h0 => exact SimGood.nil (Nat.le_zero.mp (h0 ▸ hle _))
  | cons hw hm hnm hdom ih => exact SimGood.cons ih hm hnm (le_trans (hle _) hdom)

theorem sg_mem_le {adj : WAdj} {D : Nat → Nat} {s v c : Nat} {vs : List Nat}
    (h : SimGood adj D s v c vs) : ∀ x ∈ vs, D x ≤ c := by
  induction h with
  | nil h0 =>
    intro x hx
    simp at hx
    subst hx
    omega
  | cons hw hm hnm hdom ih =>
    intro x hx
    rcases List.mem_cons.mp hx with hx | hx
    · exact hx ▸ hdom
    · exact le_trans (ih x hx) (Nat.le_add_right _ _)

theorem sg_wwalkv {adj : WAdj} {D : Nat → Nat} {s v c : Nat} {vs : List Nat}
    (h : SimGood adj D s v c vs) : WWalkV adj s v c vs := by
  induction h with
  | nil _ => exact WWalkV.nil
  | cons hw hm _ _ ih => exact WWalkV.cons ih hm

theorem sg_nodup {adj : WAdj} {D : Nat → Nat} {s v c : Nat} {vs : List Nat}
    (h : SimGood adj D s v c vs) : vs.Nodup := by
  induction h with
  | nil _ => simp
  | cons hw hm hnm _ ih => simp [List.nodup_cons, hnm, ih]

theorem sg_le_totalW {adj : WAdj} {D : Nat → Nat} {s v c : Nat} {vs : List Nat}
    (h : SimGood adj D s v c vs) : c ≤ totalW adj :=
  wwalkv_nodup_le_totalW (sg_wwalkv h) (sg_nodup h)

/-- Core state invariant of the Dijkstra loop. -/
structure DCore (adj : WAdj) (s : Nat) (dists : List (Nat × Nat))
    (q : List (Nat × Nat)) : Prop where
  dom : ∀ k, (lookupM dists k).isSome ↔ (k ∈ keysOf adj ∨ k = s)
  start : lookupM dists s = some 0
  vmax : ∀ k d, lookupM dists k = some d → d ≤ U32MAX
  qinv : ∀ e ∈ q, (e.1 ∈ keysOf adj ∨ e.1 = s) ∧ DV dists e.1 ≤ e.2 ∧
    e.2 ≤ totalW adj ∧ e.2 < U32MAX
  real : ∀ k d, lookupM dists k = some d →
    d = U32MAX ∨ ∃ vs, SimGood adj (DV dists) s k d vs

/-- Full Dijkstra loop invariant: every edge is either relaxed or its
source is queued at its currently recorded distance. -/
structure DInv (adj : WAdj) (s : Nat) (dists : List (Nat × Nat))
    (q : List (Nat × Nat)) extends DCore adj s dists q : Prop where
  edge : ∀ u, (u ∈ keysOf adj ∨ u = s) → ∀ e ∈ wAdjOf adj u,
    DV dists e.1 ≤ DV dists u + e.2 ∨ (u, DV dists u) ∈ q

/-- Specification of the inner relaxation loop of Dijkstra. -/
theorem dijRelax_spec {adj : WAdj} {s curr c : Nat} (hcl : closedW adj)
    (hnw : ∀ c2 w, c2 ≤ totalW adj → c2 < U32MAX → WMem adj w → c2 + w < U32MOD)
    (hcS : c ≤ totalW adj) (hcM : c < U32MAX) :
    ∀ (ns : List (Nat × Nat)) (dists : List (Nat × Nat)) (q : List (Nat × Nat)),
      (∀ e ∈ ns, e ∈ wAdjOf adj curr) →
      DCore adj s dists q →
      lookupM dists curr = some c →
      (∃ vs, SimGood adj (DV dists) s curr c vs) →
      ∃ dists2 q2, dijRelax c dists q ns = some (dists2, q2) ∧
        DCore adj s dists2 q2 ∧
        lookupM dists2 curr = some c ∧
        (∀ e ∈ ns, DV dists2 e.1 ≤ c + e.2) ∧
        (∀ k, DV dists2 k ≤ DV dists k) ∧
        (∀ k, DV dists2 k < DV dists k → (k, DV dists2 k) ∈ q2) ∧
        (∀ x ∈ q, x ∈ q2) ∧
        sumVals dists2 + q2.length ≤ sumVals dists + q.length := by
  intro ns
  induction ns with
  | nil =>
    intro dists q _ hinv hc _
    exact ⟨dists, q, rfl, hinv, hc, by simp, fun k => le_refl _,
      fun k h => absurd h (lt_irrefl _), fun x hx => hx, le_refl _⟩
  | cons e ns ih =>
    obtain ⟨v, w⟩ := e
    intro dists q hns hinv hc hsgc
    obtain ⟨vsc, hsg⟩ := hsgc
    have hv : (v, w) ∈ wAdjOf adj curr := hns (v, w) (List.mem_cons_self _ _)
    have hns2 : ∀ x ∈ ns, x ∈ wAdjOf adj curr := fun x hx => hns x (List.mem_cons_of_mem _ hx)
    have hvkey : v ∈ keysOf adj := closedW_wAdjOf hcl (e := (v, w)) hv
    have hvsome : (lookupM dists v).isSome := (hinv.dom v).mpr (Or.inl hvkey)
    obtain ⟨dv, hdv⟩ := Option.isSome_iff_exists.mp hvsome
    have hwmem : WMem adj w := WMem_of_wAdjOf (e := (v, w)) hv
    have hmod : (c + w) % U32MOD = c + w := Nat.mod_eq_of_lt (hnw c w hcS hcM hwmem)
    have hdveq : DV dists v = dv := by
      rw [DV, hdv]
      rfl
    by_cases hrel : (c + w) % U32MOD < dv
    · -- relaxation: record the smaller cost and push the neighbor
      have hstep : dijRelax c dists q ((v, w) :: ns) =
          dijRelax c (insertM dists v ((c + w) % U32MOD)) ((v, (c + w) % U32MOD) :: q) ns := by
        simp only [dijRelax, hdv]
        rw [if_pos hrel]
      rw [hmod] at hrel
      have hvs : ¬ v = s := by
        intro he
        rw [he, hinv.start] at hdv
        simp at hdv
        omega
      have hvcurr : ¬ v = curr := by
        intro he
        rw [he, hc] at hdv
        simp at hdv
        omega
      have hdvmax : dv ≤ U32MAX := hinv.vmax v dv hdv
      set dists1 := insertM dists v ((c + w) % U32MOD) with hdists1
      have hlook1 : ∀ k, lookupM dists1 k =
          if v = k then some (c + w) else lookupM dists k := by
        intro k
        rw [hdists1, lookupM_insertM, hmod]
      have hdvle : ∀ k, DV dists1 k ≤ DV dists k := by
        intro k
        by_cases h : v = k
        · subst h
          rw [DV, hlook1, if_pos rfl, hdveq]
          simp
          omega
        · rw [DV, hlook1, if_neg h]
          exact le_refl _
      have hnm : v ∉ vsc := by
        intro hmem
        have := sg_mem_le hsg v hmem
        omega
      have hsgnew : SimGood adj (DV dists1) s v (c + w) (v :: vsc) := by
        refine SimGood.cons (sg_mono hdvle hsg) hv hnm ?_
        rw [DV, hlook1, if_pos rfl]
        exact le_refl _
      have hnewS : c + w ≤ totalW adj := sg_le_totalW hsgnew
      have hcore1 : DCore adj s dists1 ((v, c + w) :: q) := by
        refine ⟨?_, ?_, ?_, ?_, ?_⟩
        · intro k
          rw [hlook1]
          by_cases h : v = k
          · subst h
            simp [hvkey]
          · simp [h, hinv.dom k]
        · rw [hlook1, if_neg hvs]
          exact hinv.start
        · intro k d hkd
          rw [hlook1] at hkd
          by_cases h : v = k
          · rw [if_pos h] at hkd
            simp at hkd
            omega
          · rw [if_neg h] at hkd
            exact hinv.vmax k d hkd
        · intro e he
          rcases List.mem_cons.mp he with he | he
          · subst he
            refine ⟨Or.inl hvkey, ?_, hnewS, by omega⟩
            rw [DV, hlook1, if_pos rfl]
            exact le_refl _
          · obtain ⟨h1, h2, h3, h4⟩ := hinv.qinv e he
            exact ⟨h1, le_trans (hdvle e.1) h2, h3, h4⟩
        · intro k d hkd
          rw [hlook1] at hkd
          by_cases h : v = k
          · rw [if_pos h] at hkd
            simp at hkd
            subst h
            exact Or.inr ⟨v :: vsc, hkd ▸ hsgnew⟩
          · rw [if_neg h] at hkd
            rcases hinv.real k d hkd with h2 | ⟨vs2, h2⟩
            · exact Or.inl h2
            · exact Or.inr ⟨vs2, sg_mono hdvle h2⟩
      have hc1 : lookupM dists1 curr = some c := by
        rw [hlook1, if_neg hvcurr]
        exact hc
      have hsgc1 : ∃ vs, SimGood adj (DV dists1) s curr c vs :=
        ⟨vsc, sg_mono hdvle hsg⟩
      obtain ⟨dists2, q2, hrun, hcore2, hc2, hproc, hmono, hpush, hqmem, hfuel⟩ :=
        ih dists1 ((v, c + w) :: q) hns2 hcore1 hc1 hsgc1
      rw [hmod] at hstep
      refine ⟨dists2, q2, by rw [hstep]; exact hrun, hcore2, hc2,
        ?_, ?_, ?_, ?_, ?_⟩
      · intro e he
        rcases List.mem_cons.mp he with he | he
        · rw [he]
          have h1 : DV dists1 v = c + w := by
            rw [DV, hlook1, if_pos rfl]
            rfl
          exact le_trans (hmono v) (le_of_eq h1)
        · exact hproc e he
      · intro k
        exact le_trans (hmono k) (hdvle k)
      · intro k hk
        by_cases h : DV dists2 k < DV dists1 k
        · exact hpush k h
        · have h1 : DV dists2 k = DV dists1 k := le_antisymm (hmono k) (not_lt.mp h)
          have h2 : DV dists1 k < DV dists k := lt_of_le_of_lt (le_of_eq h1.symm) hk
          have h3 : k = v := by
            by_contra h4
            rw [DV, hlook1, if_neg (fun he => h4 he.symm)] at h2
            exact lt_irrefl _ h2
          have h5 : DV dists2 k = c + w := by
            rw [h1, h3, DV, hlook1, if_pos rfl]
            rfl
          rw [h5, h3]
          refine hqmem (v, c + w) ?_
          rw [← hmod]
          exact List.mem_cons_self _ _
      · intro x hx
        refine hqmem x (List.mem_cons_of_mem _ hx)
      · have hins := sumVals_insertM hdv ((c + w) % U32MOD)
        have hfuel3 := hfuel
        rw [hdists1] at hfuel3
        simp only [List.length_cons] at hfuel3
        omega
    · -- no relaxation
      have hstep : dijRelax c dists q ((v, w) :: ns) = dijRelax c dists q ns := by
        simp only [dijRelax, hdv]
        rw [if_neg hrel]
      rw [hmod] at hrel
      obtain ⟨dists2, q2, hrun, hcore2, hc2, hproc, hmono, hpush, hqmem, hfuel⟩ :=
        ih dists q hns2 hinv hc ⟨vsc, hsg⟩
      refine ⟨dists2, q2, by rw [hstep]; exact hrun, hcore2, hc2, ?_, hmono, hpush,
        hqmem, hfuel⟩
      intro e he
      rcases List.mem_cons.mp he with he | he
      · rw [he]
        calc DV dists2 v ≤ DV dists v := hmono v
        _ = dv := hdveq
        _ ≤ c + w := not_lt.mp hrel
      · exact hproc e he

/-- Conclusions available about the final Dijkstra table. -/
structure DFinal (adj : WAdj) (s : Nat) (t : List (Nat × Nat)) : Prop where
  dom : ∀ k, (lookupM t k).isSome ↔ (k ∈ keysOf adj ∨ k = s)
  start : lookupM t s = some 0
  vmax : ∀ k d, lookupM t k = some d → d ≤ U32MAX
  real : ∀ k d, lookupM t k = some d → d = U32MAX ∨ WWalk adj s k d
  edge : ∀ u, (u ∈ keysOf adj ∨ u = s) → ∀ e ∈ wAdjOf adj u, DV t e.1 ≤ DV t u + e.2

theorem DInv_empty_final {adj : WAdj} {s : Nat} {dists : List (Nat × Nat)}
    (hinv : DInv adj s dists []) : DFinal adj s dists := by
  refine ⟨hinv.dom, hinv.start, hinv.vmax, ?_, ?_⟩
  · intro k d hkd
    rcases hinv.real k d hkd with h | ⟨vs, h⟩
    · exact Or.inl h
    · exact Or.inr (wwalkv_to_wwalk (sg_wwalkv h))
  · intro u hu e he
    rcases hinv.edge u hu e he with h | h
    · exact h
    · simp at h

theorem dijLoop_spec {adj : WAdj} {s : Nat} (hcl : closedW adj)
    (hnw : ∀ c2 w, c2 ≤ totalW adj → c2 < U32MAX → WMem adj w → c2 + w < U32MOD) :
    ∀ (fuel : Nat) (dists : List (Nat × Nat)) (q : List (Nat × Nat)),
      DInv adj s dists q →
      sumVals dists + q.length ≤ fuel →
      ∃ t, dijLoop adj fuel dists q = some t ∧ DFinal adj s t := by
  intro fuel
  induction fuel with
  | zero =>
    intro dists q hinv hfuel
    have hq : q = [] := by
      cases q with
      | nil => rfl
      | cons a as => simp at hfuel
    subst hq
    exact ⟨dists, by simp [dijLoop, popMin], DInv_empty_final hinv⟩
  | succ fuel ih =>
    intro dists q hinv hfuel
    cases hpop : popMin q with
    | none =>
      have hq : q = [] := (popMin_none_iff q).mp hpop
      subst hq
      exact ⟨dists, by simp [dijLoop, popMin], DInv_empty_final hinv⟩
    | some p =>
      obtain ⟨⟨u, c⟩, rest⟩ := p
      have hmemq : (u, c) ∈ q := popMin_mem hpop
      obtain ⟨hukey, hdvle, hcS, hcM⟩ := hinv.qinv (u, c) hmemq
      have husome : (lookupM dists u).isSome := (hinv.dom u).mpr hukey
      obtain ⟨du, hdu⟩ := Option.isSome_iff_exists.mp husome
      have hdueq : DV dists u = du := by
        rw [DV, hdu]
        rfl
      have hlen := popMin_length hpop
      by_cases hstale : c > du
      · -- stale entry: discard it, nothing else changes
        have hinv2 : DInv adj s dists rest := by
          refine ⟨⟨hinv.dom, hinv.start, hinv.vmax, ?_, hinv.real⟩, ?_⟩
          · intro e he
            exact hinv.qinv e (popMin_subset hpop e he)
          · intro x hx e he
            rcases hinv.edge x hx e he with h | h
            · exact Or.inl h
            · rcases popMin_cover hpop _ h with h2 | h2
              · exfalso
                have h3 : DV dists x = c := congrArg Prod.snd h2
                have h4 : x = u := congrArg Prod.fst h2
                rw [h4, hdueq] at h3
                omega
              · exact Or.inr h2
        have hstep : dijLoop adj (fuel + 1) dists q = dijLoop adj fuel dists rest := by
          simp only [dijLoop, hpop, hdu]
          rw [if_pos hstale]
        rw [hstep]
        exact ih dists rest hinv2 (by omega)
      · -- live entry: its cost equals the recorded distance; relax neighbors
        have hceq : c = du := le_antisymm (not_lt.mp hstale) (hdueq ▸ hdvle)
        have hsgc : ∃ vs, SimGood adj (DV dists) s u c vs := by
          rcases hinv.real u du hdu with h | ⟨vs, h⟩
          · omega
          · exact ⟨vs, hceq ▸ h⟩
        have hcu : lookupM dists u = some c := by
          rw [hdu, hceq]
        have hcore : DCore adj s dists rest := by
          refine ⟨hinv.dom, hinv.start, hinv.vmax, ?_, hinv.real⟩
          intro e he
          exact hinv.qinv e (popMin_subset hpop e he)
        obtain ⟨dists2, q2, hrun, hcore2, hc2, hproc, hmono, hpush, hqmem, hfuel2⟩ :=
          dijRelax_spec hcl hnw hcS hcM (wAdjOf adj u) dists rest
            (fun e he => he) hcore hcu hsgc
        have hinv2 : DInv adj s dists2 q2 := by
          refine ⟨hcore2, ?_⟩
          intro x hx e he
          by_cases hxu : x = u
          · subst hxu
            left
            have h1 : DV dists2 e.1 ≤ c + e.2 := hproc e he
            have h2 : DV dists2 x = c := by
              rw [DV, hc2]
              rfl
            omega
          · by_cases hch : DV dists2 x < DV dists x
            · exact Or.inr (hpush x hch)
            · have hxeq : DV dists2 x = DV dists x :=
                le_antisymm (hmono x) (not_lt.mp hch)
              rcases hinv.edge x hx e he with h | h
              · left
                calc DV dists2 e.1 ≤ DV dists e.1 := hmono e.1
                _ ≤ DV dists x + e.2 := h
                _ = DV dists2 x + e.2 := by rw [hxeq]
              · rcases popMin_cover hpop _ h with h2 | h2
                · exfalso
                  exact hxu (congrArg Prod.fst h2)
                · rw [hxeq]
                  exact Or.inr (hqmem _ h2)
        have hstep : dijLoop adj (fuel + 1) dists q = dijLoop adj fuel dists2 q2 := by
          simp only [dijLoop, hpop, hdu]
          rw [if_neg hstale]
          simp only [hrun]
        rw [hstep]
        exact ih dists2 q2 hinv2 (by omega)

/-- Master theorem for `dijkstras` on a neighbor-closed weighted adjacency
structure whose weights cannot overflow the `u32` cost additions. -/
theorem dijkstras_spec {adj : WAdj} (hcl : closedW adj)
    (hnw : ∀ c2 w, c2 ≤ totalW adj → c2 < U32MAX → WMem adj w → c2 + w < U32MOD)
    (s : Nat) :
    ∃ t, dijkstras adj s = some t ∧ DFinal adj s t := by
  set dists0 := insertM (adj.map (fun p => (p.1, U32MAX))) s 0 with hd0
  have hinit : ∀ k, lookupM dists0 k =
      if s = k then some 0 else (lookupM adj k).map (fun _ => U32MAX) := by
    intro k
    rw [hd0, lookupM_insertM, lookupM_mapMax]
  have hinv : DInv adj s dists0 [(s, 0)] := by
    refine ⟨⟨?_, ?_, ?_, ?_, ?_⟩, ?_⟩
    · intro k
      rw [hinit]
      by_cases h : s = k
      · subst h
        simp
      · rw [if_neg h]
        rw [← lookupM_isSome_iff]
        have h2 : ¬ k = s := fun hh => h hh.symm
        cases lookupM adj k <;> simp [h2]
    · rw [hinit, if_pos rfl]
    · intro k d hkd
      rw [hinit] at hkd
      by_cases h : s = k
      · rw [if_pos h] at hkd
        simp at hkd
        omega
      · rw [if_neg h] at hkd
        simp at hkd
        exact le_of_eq hkd.2.symm
    · intro e he
      simp at he
      subst he
      have h1 : DV dists0 s = 0 := by
        rw [DV, hinit, if_pos rfl]
        rfl
      refine ⟨Or.inr rfl, by rw [h1], by simp, ?_⟩
      unfold U32MAX
      omega
    · intro k d hkd
      rw [hinit] at hkd
      by_cases h : s = k
      · rw [if_pos h] at hkd
        simp at hkd
        subst h
        refine Or.inr ⟨[s], hkd ▸ SimGood.nil ?_⟩
        rw [DV, hinit, if_pos rfl]
        rfl
      · rw [if_neg h] at hkd
        simp at hkd
        exact Or.inl hkd.2.symm
    · intro u hu e he
      by_cases h : u = s
      · subst h
        right
        have h1 : DV dists0 u = 0 := by
          rw [DV, hinit, if_pos rfl]
          rfl
        rw [h1]
        simp
      · left
        have h1 : DV dists0 u = U32MAX := by
          rw [DV, hinit, if_neg (fun he2 => h he2.symm)]
          cases lookupM adj u <;> simp
        have h2 : DV dists0 e.1 ≤ U32MAX := by
          rw [DV, hinit]
          by_cases h3 : s = e.1
          · rw [if_pos h3]
            simp
          · rw [if_neg h3]
            cases lookupM adj e.1 <;> simp
        omega
  obtain ⟨t, hrun, hfin⟩ := dijLoop_spec hcl hnw (sumVals dists0 + 1) dists0 [(s, 0)]
    hinv (by simp)
  exact ⟨t, hrun, hfin⟩

/-- The final Dijkstra table lower-bounds the weight of every walk. -/
theorem dfinal_le_walk {adj : WAdj} {s : Nat} {t : List (Nat × Nat)} (hcl : closedW adj)
    (hf : DFinal adj s t) {v c : Nat} (h : WWalk adj s v c) : DV t v ≤ c := by
  induction h with
  | nil =>
    have h1 : DV t s = 0 := by
      rw [DV, hf.start]
      rfl
    omega
  | cons hw hm ih =>
    rename_i u c2 v2 w
    have hu : u ∈ keysOf adj ∨ u = s := by
      rcases wwalk_endpoint hcl hw with h1 | h1
      · exact Or.inr h1
      · exact Or.inl h1
    have hedge := hf.edge u hu (v2, w) hm
    simp at hedge
    omega

/-! Characterizations of the final tables in terms of minimal walks. -/

theorem walkV_to_derived {adj : Adj} {s v : Nat} {vs : List Nat} (h : WalkV adj s v vs) :
    WWalkV (edges_to_weighted_adjacency_list adj) s v (vs.length - 1) vs := by
  induction h with
  | nil => simpa using WWalkV.nil
  | cons hw hm ih =>
    rename_i u vs2 v2
    obtain ⟨t, ht⟩ := walkV_head hw
    subst ht
    have hm2 : (v2, 1) ∈ wAdjOf (edges_to_weighted_adjacency_list adj) u := by
      rw [wAdjOf_derived]
      exact List.mem_map_of_mem _ hm
    simpa using WWalkV.cons ih hm2

theorem derived_to_walkV {adj : Adj} {s v c : Nat} {vs : List Nat}
    (h : WWalkV (edges_to_weighted_adjacency_list adj) s v c vs) :
    WalkV adj s v vs ∧ c + 1 = vs.length := by
  induction h with
  | nil => exact ⟨WalkV.nil, by simp⟩
  | cons hw hm ih =>
    rename_i u c2 vs2 v2 w
    rw [wAdjOf_derived] at hm
    rw [List.mem_map] at hm
    obtain ⟨a, ha, hae⟩ := hm
    have h1 : a = v2 := congrArg Prod.fst hae
    have h2 : (1 : Nat) = w := congrArg Prod.snd hae
    obtain ⟨hwv, hlen⟩ := ih
    refine ⟨WalkV.cons hwv (h1 ▸ ha), ?_⟩
    simp only [List.length_cons]
    omega

theorem walkV_vertices {adj : Adj} {s v : Nat} {vs : List Nat} (hcl : closedU adj)
    (h : WalkV adj s v vs) : ∀ x ∈ vs, x = s ∨ x ∈ keysOf adj := by
  induction h with
  | nil =>
    intro x hx
    simp at hx
    exact Or.inl hx
  | cons hw hm ih =>
    intro x hx
    rcases List.mem_cons.mp hx with hx | hx
    · exact Or.inr (hx ▸ closedU_adjOf hcl hm)
    · exact ih x hx

/-- Every reachable vertex is reachable by a walk of at most `u32::MAX`
edges: a simple path visits each distinct `u32` key at most once. -/
theorem reach_min_le_MAX {adj : Adj} {s v : Nat}
    (hcl : closedU adj) (hkmax : ∀ k ∈ keysOf adj, k < U32MOD) (hsmax : s < U32MOD)
    {n : Nat} (h : WalkN adj s v n) : ∃ m, m ≤ U32MAX ∧ WalkN adj s v m := by
  obtain ⟨vs, hv, hlen⟩ := walkN_to_walkV h
  have hd := walkV_to_derived hv
  obtain ⟨c2, vs2, h2, h3, h4, h5⟩ := wwalkv_simple hd
  obtain ⟨hwv2, hlen2⟩ := derived_to_walkV h2
  have hbound : vs2.length ≤ U32MOD := by
    refine nodup_length_le h4 ?_
    intro x hx
    rcases walkV_vertices hcl hv x (h5 x hx) with h6 | h6
    · exact h6 ▸ hsmax
    · exact hkmax x h6
  refine ⟨vs2.length - 1, ?_, ?_⟩
  · unfold U32MAX
    unfold U32MOD at hbound
    omega
  · have := walkV_to_walkN hwv2
    exact this

theorem bfinal_unreachable {adj : Adj} {s : Nat} {t : List (Nat × Nat)}
    (hf : BFinal adj s t) {v d : Nat} (hd : lookupM t v = some d)
    (hnr : ¬ ∃ n, WalkN adj s v n) : d = U32MAX := by
  rcases hf.real v d hd with h | h
  · exact h
  · exact absurd ⟨d, h⟩ hnr

theorem bfinal_reachable_eq {adj : Adj} {s : Nat} {t : List (Nat × Nat)}
    (hcl : closedU adj) (hkmax : ∀ k ∈ keysOf adj, k < U32MOD) (hsmax : s < U32MOD)
    (hf : BFinal adj s t) {v : Nat} (hreach : ∃ n, WalkN adj s v n) :
    ∃ d, lookupM t v = some d ∧ WalkN adj s v d ∧ ∀ n, WalkN adj s v n → d ≤ n := by
  obtain ⟨n0, hn0⟩ := hreach
  obtain ⟨m, hm, hmin⟩ := exists_least ⟨n0, hn0⟩
  have hvdom : v ∈ keysOf adj ∨ v = s := by
    rcases walkN_endpoint hcl hn0 with h | h
    · exact Or.inr h
    · exact Or.inl h
  obtain ⟨d, hd⟩ := Option.isSome_iff_exists.mp ((hf.dom v).mpr hvdom)
  have hDV : DV t v = d := by
    rw [DV, hd]
    rfl
  have hupper : d ≤ m := hDV ▸ bfinal_le_walk hcl hf hm
  refine ⟨d, hd, ?_, ?_⟩
  · by_cases hdm : d < U32MAX
    · rcases hf.real v d hd with h | h
      · omega
      · exact h
    · have hdmax : d = U32MAX := le_antisymm (hf.vmax v d hd) (not_lt.mp hdm)
      obtain ⟨m2, hm2le, hm2⟩ := reach_min_le_MAX hcl hkmax hsmax hn0
      have h1 : m ≤ m2 := hmin m2 hm2
      have h2 : d = m := by omega
      exact h2 ▸ hm
  · intro n hn
    exact le_trans (hDV ▸ bfinal_le_walk hcl hf hn) (le_refl n)

theorem dfinal_unreachable {adj : WAdj} {s : Nat} {t : List (Nat × Nat)}
    (hf : DFinal adj s t) {v d : Nat} (hd : lookupM t v = some d)
    (hnr : ¬ ∃ c, WWalk adj s v c) : d = U32MAX := by
  rcases hf.real v d hd with h | h
  · exact h
  · exact absurd ⟨d, h⟩ hnr

theorem dfinal_reachable_eq {adj : WAdj} {s : Nat} {t : List (Nat × Nat)}
    (hcl : closedW adj) (hS : totalW adj < U32MAX)
    (hf : DFinal adj s t) {v : Nat} (hreach : ∃ c, WWalk adj s v c) :
    ∃ d, lookupM t v = some d ∧ WWalk adj s v d ∧ ∀ c, WWalk adj s v c → d ≤ c := by
  obtain ⟨c0, hc0⟩ := hreach
  obtain ⟨m, hm, hmin⟩ := exists_least ⟨c0, hc0⟩
  have hvdom : v ∈ keysOf adj ∨ v = s := by
    rcases wwalk_endpoint hcl hc0 with h | h
    · exact Or.inr h
    · exact Or.inl h
  obtain ⟨d, hd⟩ := Option.isSome_iff_exists.mp ((hf.dom v).mpr hvdom)
  have hDV : DV t v = d := by
    rw [DV, hd]
    rfl
  have hupper : d ≤ m := hDV ▸ dfinal_le_walk hcl hf hm
  have hmS : m ≤ totalW adj := by
    obtain ⟨c2, hw2, hle2, hleS⟩ := wwalk_le_totalW hm
    exact le_trans (hmin c2 hw2) hleS
  have hdm : d < U32MAX := by omega
  refine ⟨d, hd, ?_, ?_⟩
  · rcases hf.real v d hd with h | h
    · omega
    · exact h
  · intro c hc
    exact hDV ▸ dfinal_le_walk hcl hf hc

/-- On the unit-weight derivation the final Dijkstra table agrees with the
final BFS table pointwise. -/
theorem derived_table_eq {adj : Adj} (hcl : closedU adj) {s : Nat}
    {t1 t2 : List (Nat × Nat)}
    (hf1 : DFinal (edges_to_weighted_adjacency_list adj) s t1)
    (hf2 : BFinal adj s t2) :
    ∀ v, lookupM t1 v = lookupM t2 v := by
  have hclW : closedW (edges_to_weighted_adjacency_list adj) := closedW_derived hcl
  intro v
  by_cases hv : v ∈ keysOf adj ∨ v = s
  · have hv1 : v ∈ keysOf (edges_to_weighted_adjacency_list adj) ∨ v = s := by
      rw [keysOf_derived]
      exact hv
    obtain ⟨d1, hd1⟩ := Option.isSome_iff_exists.mp ((hf1.dom v).mpr hv1)
    obtain ⟨d2, hd2⟩ := Option.isSome_iff_exists.mp ((hf2.dom v).mpr hv)
    have h12 : d1 ≤ d2 := by
      by_cases h : d2 < U32MAX
      · rcases hf2.real v d2 hd2 with h2 | h2
        · omega
        · have h3 : WWalk (edges_to_weighted_adjacency_list adj) s v d2 :=
            (wwalk_derived_iff adj s v d2).mpr h2
          have h4 := dfinal_le_walk hclW hf1 h3
          rw [DV, hd1] at h4
          exact h4
      · have h2 := hf1.vmax v d1 hd1
        have h3 : d2 = U32MAX := le_antisymm (hf2.vmax v d2 hd2) (not_lt.mp h)
        omega
    have h21 : d2 ≤ d1 := by
      by_cases h : d1 < U32MAX
      · rcases hf1.real v d1 hd1 with h2 | h2
        · omega
        · have h3 : WalkN adj s v d1 := (wwalk_derived_iff adj s v d1).mp h2
          have h4 := bfinal_le_walk hcl hf2 h3
          rw [DV, hd2] at h4
          exact h4
      · have h2 := hf2.vmax v d2 hd2
        have h3 : d1 = U32MAX := le_antisymm (hf1.vmax v d1 hd1) (not_lt.mp h)
        omega
    rw [hd1, hd2]
    rw [le_antisymm h12 h21]
  · have hv1 : ¬ (v ∈ keysOf (edges_to_weighted_adjacency_list adj) ∨ v = s) := by
      rw [keysOf_derived]
      exact hv
    have h1 : lookupM t1 v = none := by
      rcases h : lookupM t1 v with _ | d
      · rfl
      · exact absurd ((hf1.dom v).mp (by simp [h])) hv1
    have h2 : lookupM t2 v = none := by
      rcases h : lookupM t2 v with _ | d
      · rfl
      · exact absurd ((hf2.dom v).mp (by simp [h])) hv
    rw [h1, h2]

/-! Safety of the Dijkstra loop for any neighbor-closed structure: no
lookup panics and the loop terminates, with no hypothesis on weights
(wrapped costs still strictly decrease the relaxed entry). -/

theorem dijRelax_safe {adj : WAdj} {s curr c : Nat} (hcl : closedW adj) :
    ∀ (ns : List (Nat × Nat)) (dists : List (Nat × Nat)) (q : List (Nat × Nat)),
      (∀ e ∈ ns, e ∈ wAdjOf adj curr) →
      (∀ k, (lookupM dists k).isSome ↔ (k ∈ keysOf adj ∨ k = s)) →
      (∀ e ∈ q, e.1 ∈ keysOf adj ∨ e.1 = s) →
      ∃ dists2 q2, dijRelax c dists q ns = some (dists2, q2) ∧
        (∀ k, (lookupM dists2 k).isSome ↔ (k ∈ keysOf adj ∨ k = s)) ∧
        (∀ e ∈ q2, e.1 ∈ keysOf adj ∨ e.1 = s) ∧
        sumVals dists2 + q2.length ≤ sumVals dists + q.length := by
  intro ns
  induction ns with
  | nil =>
    intro dists q _ hdom hq
    exact ⟨dists, q, rfl, hdom, hq, le_refl _⟩
  | cons e ns ih =>
    obtain ⟨v, w⟩ := e
    intro dists q hns hdom hq
    have hv : (v, w) ∈ wAdjOf adj curr := hns (v, w) (List.mem_cons_self _ _)
    have hns2 : ∀ x ∈ ns, x ∈ wAdjOf adj curr := fun x hx => hns x (List.mem_cons_of_mem _ hx)
    have hvkey : v ∈ keysOf adj := closedW_wAdjOf hcl (e := (v, w)) hv
    obtain ⟨dv, hdv⟩ := Option.isSome_iff_exists.mp ((hdom v).mpr (Or.inl hvkey))
    by_cases hrel : (c + w) % U32MOD < dv
    · have hstep : dijRelax c dists q ((v, w) :: ns) =
          dijRelax c (insertM dists v ((c + w) % U32MOD)) ((v, (c + w) % U32MOD) :: q) ns := by
        simp only [dijRelax, hdv]
        rw [if_pos hrel]
      have hdom1 : ∀ k, (lookupM (insertM dists v ((c + w) % U32MOD)) k).isSome ↔
          (k ∈ keysOf adj ∨ k = s) := by
        intro k
        rw [lookupM_insertM]
        by_cases h : v = k
        · subst h
          simp [hvkey]
        · simp [h, hdom k]
      have hq1 : ∀ e ∈ ((v, (c + w) % U32MOD) :: q), e.1 ∈ keysOf adj ∨ e.1 = s := by
        intro e he
        rcases List.mem_cons.mp he with he | he
        · exact he ▸ Or.inl hvkey
        · exact hq e he
      obtain ⟨dists2, q2, hrun, hdom2, hq2, hfuel⟩ :=
        ih (insertM dists v ((c + w) % U32MOD)) ((v, (c + w) % U32MOD) :: q) hns2 hdom1 hq1
      refine ⟨dists2, q2, by rw [hstep]; exact hrun, hdom2, hq2, ?_⟩
      have hins := sumVals_insertM hdv ((c + w) % U32MOD)
      simp only [List.length_cons] at hfuel
      omega
    · have hstep : dijRelax c dists q ((v, w) :: ns) = dijRelax c dists q ns := by
        simp only [dijRelax, hdv]
        rw [if_neg hrel]
      obtain ⟨dists2, q2, hrun, hdom2, hq2, hfuel⟩ := ih dists q hns2 hdom hq
      exact ⟨dists2, q2, by rw [hstep]; exact hrun, hdom2, hq2, hfuel⟩

theorem dijLoop_safe {adj : WAdj} {s : Nat} (hcl : closedW adj) :
    ∀ (fuel : Nat) (dists : List (Nat × Nat)) (q : List (Nat × Nat)),
      (∀ k, (lookupM dists k).isSome ↔ (k ∈ keysOf adj ∨ k = s)) →
      (∀ e ∈ q, e.1 ∈ keysOf adj ∨ e.1 = s) →
      sumVals dists + q.length ≤ fuel →
      ∃ t, dijLoop adj fuel dists q = some t ∧
        (∀ k, (lookupM t k).isSome ↔ (k ∈ keysOf adj ∨ k = s)) := by
  intro fuel
  induction fuel with
  | zero =>
    intro dists q hdom hq hfuel
    have hqnil : q = [] := by
      cases q with
      | nil => rfl
      | cons a as => simp at hfuel
    subst hqnil
    exact ⟨dists, by simp [dijLoop, popMin], hdom⟩
  | succ fuel ih =>
    intro dists q hdom hq hfuel
    cases hpop : popMin q with
    | none =>
      have hqnil : q = [] := (popMin_none_iff q).mp hpop
      subst hqnil
      exact ⟨dists, by simp [dijLoop, popMin], hdom⟩
    | some p =>
      obtain ⟨⟨u, c⟩, rest⟩ := p
      have hukey := hq (u, c) (popMin_mem hpop)
      obtain ⟨du, hdu⟩ := Option.isSome_iff_exists.mp ((hdom u).mpr hukey)
      have hlen := popMin_length hpop
      have hqrest : ∀ e ∈ rest, e.1 ∈ keysOf adj ∨ e.1 = s :=
        fun e he => hq e (popMin_subset hpop e he)
      by_cases hstale : c > du
      · have hstep : dijLoop adj (fuel + 1) dists q = dijLoop adj fuel dists rest := by
          simp only [dijLoop, hpop, hdu]
          rw [if_pos hstale]
        rw [hstep]
        exact ih dists rest hdom hqrest (by omega)
      · obtain ⟨dists2, q2, hrun, hdom2, hq2, hfuel2⟩ :=
          dijRelax_safe (s := s) (c := c) hcl (wAdjOf adj u) dists rest
            (fun e he => he) hdom hqrest
        have hstep : dijLoop adj (fuel + 1) dists q = dijLoop adj fuel dists2 q2 := by
          simp only [dijLoop, hpop, hdu]
          rw [if_neg hstale]
          simp only [hrun]
        rw [hstep]
        exact ih dists2 q2 hdom2 hq2 (by omega)

/-- Safety of `dijkstras`: on any neighbor-closed weighted structure the
function returns a table defined exactly on the keys and the start. -/
theorem dijkstras_safe {adj : WAdj} (hcl : closedW adj) (s : Nat) :
    ∃ t, dijkstras adj s = some t ∧
      (∀ k, (lookupM t k).isSome ↔ (k ∈ keysOf adj ∨ k = s)) := by
  set dists0 := insertM (adj.map (fun p => (p.1, U32MAX))) s 0 with hd0
  have hinit : ∀ k, lookupM dists0 k =
      if s = k then some 0 else (lookupM adj k).map (fun _ => U32MAX) := by
    intro k
    rw [hd0, lookupM_insertM, lookupM_mapMax]
  have hdom : ∀ k, (lookupM dists0 k).isSome ↔ (k ∈ keysOf adj ∨ k = s) := by
    intro k
    rw [hinit]
    by_cases h : s = k
    · subst h
      simp
    · rw [if_neg h]
      rw [← lookupM_isSome_iff]
      have h2 : ¬ k = s := fun hh => h hh.symm
      cases lookupM adj k <;> simp [h2]
  obtain ⟨t, hrun, hdom2⟩ := dijLoop_safe hcl (sumVals dists0 + 1) dists0 [(s, 0)]
    hdom (by intro e he; simp at he; exact he ▸ Or.inr rfl) (by simp)
  exact ⟨t, hrun, hdom2⟩

/-! Sampling harness: the off-diagonal pair enumeration produced by the
nested `for i / for j in (i+1)..` loops. -/

/-- All ordered pairs `(l[i], l[j])` with `i < j`, in row-major order. -/
def offDiag {α : Type} : List α → List (α × α)
  | [] => []
  | x :: xs => xs.map (fun y => (x, y)) ++ offDiag xs

theorem offDiag_length {α : Type} (l : List α) :
    2 * (offDiag l).length = l.length * (l.length - 1) := by
  induction l with
  | nil => simp [offDiag]
  | cons x xs ih =>
    simp only [offDiag, List.length_append, List.length_map, List.length_cons]
    cases hxs : xs.length with
    | zero =>
      rw [hxs] at ih
      simp at ih
      simp [ih]
    | succ k =>
      rw [hxs] at ih
      have h2 : 2 * (offDiag xs).length = (k + 1) * k := by simpa using ih
      have h3 : 2 * (k + 1 + (offDiag xs).length) = (k + 1 + 1) * (k + 1) := by
        nlinarith [h2]
      simpa using h3

theorem offDiag_mem_split {α : Type} {l : List α} {a b : α}
    (h : (a, b) ∈ offDiag l) : ∃ A B C, l = A ++ a :: (B ++ b :: C) := by
  induction l with
  | nil => simp [offDiag] at h
  | cons x xs ih =>
    simp only [offDiag] at h
    rcases List.mem_append.mp h with h | h
    · rw [List.mem_map] at h
      obtain ⟨y, hy, he⟩ := h
      have h1 : x = a := congrArg Prod.fst he
      have h2 : y = b := congrArg Prod.snd he
      obtain ⟨B, C, hBC⟩ := List.append_of_mem hy
      exact ⟨[], B, C, by rw [h1, ← h2, hBC]; rfl⟩
    · obtain ⟨A, B, C, hABC⟩ := ih h
      exact ⟨x :: A, B, C, by rw [hABC]; rfl⟩

theorem offDiag_mem_mem {α : Type} {l : List α} {a b : α}
    (h : (a, b) ∈ offDiag l) : a ∈ l ∧ b ∈ l := by
  obtain ⟨A, B, C, hABC⟩ := offDiag_mem_split h
  subst hABC
  constructor <;> simp

theorem offDiag_ne {α : Type} {l : List α} (hnd : l.Nodup) :
    ∀ p ∈ offDiag l, p.1 ≠ p.2 := by
  induction l with
  | nil => simp [offDiag]
  | cons x xs ih =>
    have hx : x ∉ xs := (List.nodup_cons.mp hnd).1
    have hnd2 : xs.Nodup := (List.nodup_cons.mp hnd).2
    intro p hp
    simp only [offDiag] at hp
    rcases List.mem_append.mp hp with h | h
    · rw [List.mem_map] at h
      obtain ⟨y, hy, he⟩ := h
      rw [← he]
      intro hxy
      simp at hxy
      exact hx (hxy ▸ hy)
    · exact ih hnd2 p h

theorem count_map_pair {α : Type} [DecidableEq α] (x a b : α) (xs : List α) :
    (xs.map (fun y => (x, y))).count (a, b) = if x = a then xs.count b else 0 := by
  induction xs with
  | nil => simp
  | cons y ys ih =>
    simp only [List.map_cons, List.count_cons, ih]
    by_cases h : x = a
    · subst h
      by_cases h2 : b = y
      · subst h2
        simp
      · have h3 : ¬ ((x, b) = (x, y)) := by
          intro he
          exact h2 (congrArg Prod.snd he)
        simp [h2, h3]
    · have h3 : ¬ ((a, b) = (x, y)) := by
        intro he
        exact h (congrArg Prod.fst he).symm
      simp [h, h3]

theorem offDiag_count {α : Type} [DecidableEq α] {l : List α} (hnd : l.Nodup)
    {a b : α} (ha : a ∈ l) (hb : b ∈ l) (hne : a ≠ b) :
    (offDiag l).count (a, b) + (offDiag l).count (b, a) = 1 := by
  induction l with
  | nil => simp at ha
  | cons x xs ih =>
    have hx : x ∉ xs := (List.nodup_cons.mp hnd).1
    have hnd2 : xs.Nodup := (List.nodup_cons.mp hnd).2
    have hcnt : ∀ u v : α, u = x → ((offDiag xs).count (u, v) = 0) := by
      intro u v hu
      rw [List.count_eq_zero]
      intro hmem
      exact hx (hu ▸ (offDiag_mem_mem hmem).1)
    have hcnt2 : ∀ u v : α, v = x → ((offDiag xs).count (u, v) = 0) := by
      intro u v hv
      rw [List.count_eq_zero]
      intro hmem
      exact hx (hv ▸ (offDiag_mem_mem hmem).2)
    simp only [offDiag, List.count_append, count_map_pair]
    by_cases hxa : x = a
    · subst hxa
      have hbxs : b ∈ xs := by
        rcases List.mem_cons.mp hb with h | h
        · exact absurd h.symm hne
        · exact h
      have h1 : xs.count b = 1 := List.count_eq_one_of_mem hnd2 hbxs
      have h2 : ¬ x = b := hne
      rw [if_pos rfl, if_neg h2, h1, hcnt x b rfl, hcnt2 b x rfl]
    · by_cases hxb : x = b
      · subst hxb
        have haxs : a ∈ xs := by
          rcases List.mem_cons.mp ha with h | h
          · exact absurd h.symm hxa
          · exact h
        have h1 : xs.count a = 1 := List.count_eq_one_of_mem hnd2 haxs
        rw [if_neg hxa, if_pos rfl, h1, hcnt2 a x rfl, hcnt x a rfl]
      · have haxs : a ∈ xs := by
          rcases List.mem_cons.mp ha with h | h
          · exact absurd h.symm hxa
          · exact h
        have hbxs : b ∈ xs := by
          rcases List.mem_cons.mp hb with h | h
          · exact absurd h.symm hxb
          · exact h
        rw [if_neg hxa, if_neg hxb]
        have := ih hnd2 haxs hbxs
        omega

/-- Specification of the inner harness loop: one record per later sample
element, in order, when every lookup succeeds. -/
theorem innerPairs_spec {dists : List (Nat × Nat)} {x : Nat} :
    ∀ ys : List Nat, (∀ y ∈ ys, (lookupM dists y).isSome) →
    ∃ l, innerPairs dists x ys = some l ∧
      l.map (fun p => (p.node_1, p.node_2)) = ys.map (fun y => (x, y)) := by
  intro ys
  induction ys with
  | nil => exact fun _ => ⟨[], rfl, rfl⟩
  | cons y ys ih =>
    intro h
    obtain ⟨d, hd⟩ := Option.isSome_iff_exists.mp (h y (List.mem_cons_self _ _))
    obtain ⟨l, hrun, hmap⟩ := ih (fun z hz => h z (List.mem_cons_of_mem _ hz))
    refine ⟨{ node_1 := x, node_2 := y, distance := d } :: l, ?_, ?_⟩
    · simp only [innerPairs, hd, hrun]
    · simp [hmap]

/-- Specification of the outer BFS harness loop. -/
theorem outerBfs_spec {adj : Adj} (hcl : closedU adj) :
    ∀ chosen : List Nat, (∀ y ∈ chosen, y ∈ keysOf adj) →
    ∃ l, outerBfs adj chosen = some l ∧
      l.map (fun p => (p.node_1, p.node_2)) = offDiag chosen := by
  intro chosen
  induction chosen with
  | nil => exact fun _ => ⟨[], rfl, rfl⟩
  | cons x xs ih =>
    intro h
    obtain ⟨t, hrun, hfin⟩ := breadth_first_search_spec hcl x
    have hlooks : ∀ y ∈ xs, (lookupM t y).isSome := by
      intro y hy
      exact (hfin.dom y).mpr (Or.inl (h y (List.mem_cons_of_mem _ hy)))
    obtain ⟨row, hrow, hrowmap⟩ := innerPairs_spec (x := x) xs hlooks
    obtain ⟨l2, hl2, hl2map⟩ := ih (fun y hy => h y (List.mem_cons_of_mem _ hy))
    refine ⟨row ++ l2, ?_, ?_⟩
    · simp only [outerBfs, hrun, hrow, hl2]
    · simp [offDiag, hrowmap, hl2map]

/-- Specification of the outer Dijkstra harness loop. -/
theorem outerDij_spec {adj : WAdj} (hcl : closedW adj) :
    ∀ chosen : List Nat, (∀ y ∈ chosen, y ∈ keysOf adj) →
    ∃ l, outerDij adj chosen = some l ∧
      l.map (fun p => (p.node_1, p.node_2)) = offDiag chosen := by
  intro chosen
  induction chosen with
  | nil => exact fun _ => ⟨[], rfl, rfl⟩
  | cons x xs ih =>
    intro h
    obtain ⟨t, hrun, hdom⟩ := dijkstras_safe hcl x
    have hlooks : ∀ y ∈ xs, (lookupM t y).isSome := by
      intro y hy
      exact (hdom y).mpr (Or.inl (h y (List.mem_cons_of_mem _ hy)))
    obtain ⟨row, hrow, hrowmap⟩ := innerPairs_spec (x := x) xs hlooks
    obtain ⟨l2, hl2, hl2map⟩ := ih (fun y hy => h y (List.mem_cons_of_mem _ hy))
    refine ⟨row ++ l2, ?_, ?_⟩
    · simp only [outerDij, hrun, hrow, hl2]
    · simp [offDiag, hrowmap, hl2map]

/-! Statistics aggregator lemmas. -/

theorem foldl_wrap_eq_sum :
    ∀ (l : List DistancePair) (a : Nat),
      a + (l.map (fun p => p.distance)).sum < U32MOD →
      l.foldl (fun acc p => (acc + p.distance) % U32MOD) a =
        a + (l.map (fun p => p.distance)).sum := by
  intro l
  induction l with
  | nil => intro a _; simp
  | cons p l ih =>
    intro a h
    simp only [List.map_cons, List.sum_cons] at h
    have h2 : (a + p.distance) % U32MOD = a + p.distance := Nat.mod_eq_of_lt (by omega)
    simp only [List.foldl_cons, h2]
    rw [ih (a + p.distance) (by omega)]
    simp only [List.map_cons, List.sum_cons]
    omega

theorem foldl_add_rat {α : Type} (g : α → ℚ) :
    ∀ (l : List α) (a : ℚ), l.foldl (fun acc p => acc + g p) a = a + (l.map g).sum := by
  intro l
  induction l with
  | nil => intro a; simp
  | cons p l ih =>
    intro a
    simp only [List.foldl_cons, List.map_cons, List.sum_cons, ih]
    ring

/-! The claims. -/

/-- Weights occurring in a structure bound its total weight. -/
theorem WMem_le_totalW {adj : WAdj} {w : Nat} (h : WMem adj w) : w ≤ totalW adj := by
  obtain ⟨p, hp, e, he, hw⟩ := h
  have h1 : e.2 ≤ wsum p.2 := mem_wsum he
  have h2 : wsum p.2 ≤ totalW adj :=
    List.single_le_sum (fun x _ => Nat.zero_le x) _ (List.mem_map_of_mem _ hp)
  omega

/-- A stale pop (cost above the recorded best distance) only removes the
entry; the distance table and the rest of the queue are untouched and no
neighbor is relaxed. -/
theorem dijLoop_stale (adj : WAdj) (fuel : Nat) (dists q rest : List (Nat × Nat))
    (u c du : Nat) (hpop : popMin q = some ((u, c), rest))
    (hdu : lookupM dists u = some du) (hlt : du < c) :
    dijLoop adj (fuel + 1) dists q = dijLoop adj fuel dists rest := by
  simp only [dijLoop, hpop, hdu]
  rw [if_pos hlt]

/-- Correctness property of a BFS run claimed by C1: a table is returned;
every reachable vertex is mapped to the least number of edges of any path
from the start; every unreachable mapped vertex carries `u32::MAX`. -/
def BfsCorrect (adj : Adj) (s : Nat) : Prop :=
  ∃ t, breadth_first_search adj s = some t ∧
    (∀ v, ReachU adj s v →
      ∃ d, lookupM t v = some d ∧
        (∃ vs, WalkV adj s v vs ∧ vs.length = d + 1) ∧
        (∀ vs, WalkV adj s v vs → d + 1 ≤ vs.length)) ∧
    (∀ v d, lookupM t v = some d → ¬ ReachU adj s v → d = U32MAX)

/-- C1: on every adjacency map built from an undirected edge list with
`u32` endpoints, and for every `u32` start vertex, `breadth_first_search`
returns a distance table mapping every vertex reachable from the start to
the minimum number of edges on any path from the start to it, and every
unreachable vertex of the table to the sentinel `u32::MAX`. -/
theorem claim_C1 (E : List (Nat × Nat)) (s : Nat)
    (hE : ∀ e ∈ E, e.1 < U32MOD ∧ e.2 < U32MOD) (hs : s < U32MOD) :
    BfsCorrect (edges_to_adjacency_list E) s := by
  have hcl := closedU_build E
  have hkmax : ∀ k ∈ keysOf (edges_to_adjacency_list E), k < U32MOD := by
    intro k hk
    rw [keys_build_iff] at hk
    obtain ⟨e, he, hke⟩ := hk
    rcases hke with h | h
    · exact h ▸ (hE e he).1
    · exact h ▸ (hE e he).2
  obtain ⟨t, hrun, hfin⟩ := breadth_first_search_spec hcl s
  refine ⟨t, hrun, ?_, ?_⟩
  · intro v hreach
    rw [reachU_iff_walkN] at hreach
    obtain ⟨d, hd, hwalk, hmin⟩ := bfinal_reachable_eq hcl hkmax hs hfin hreach
    refine ⟨d, hd, walkN_to_walkV hwalk, ?_⟩
    intro vs hvs
    have h1 := hmin _ (walkV_to_walkN hvs)
    obtain ⟨tl, htl⟩ := walkV_head hvs
    subst htl
    simp at h1 ⊢
    omega
  · intro v d hd hnr
    rw [reachU_iff_walkN] at hnr
    exact bfinal_unreachable hfin hd hnr

/-- Witness for C1 on the concrete path graph 1 - 2 - 3. -/
theorem claim_C1_witness :
    (∀ e ∈ [((1 : Nat), (2 : Nat)), (2, 3)], e.1 < U32MOD ∧ e.2 < U32MOD) ∧
    BfsCorrect (edges_to_adjacency_list [(1, 2), (2, 3)]) 1 :=
  ⟨by decide, claim_C1 [(1, 2), (2, 3)] 1 (by decide) (by decide)⟩

/-- C3: on every neighbor-closed unweighted adjacency map and the
unit-weight map derived from it, the Dijkstra table equals the BFS table
from the same start, vertex for vertex.  (Closure is what makes both
functions return: a neighbor absent from the keys makes either function
panic on the unguarded `dists` lookup, cf. C10.) -/
theorem claim_C3 (adj : Adj) (s : Nat) (hcl : closedU adj) :
    ∃ t1 t2, dijkstras (edges_to_weighted_adjacency_list adj) s = some t1 ∧
      breadth_first_search adj s = some t2 ∧
      ∀ v, lookupM t1 v = lookupM t2 v := by
  have hclW := closedW_derived hcl
  have hnw : ∀ c2 w, c2 ≤ totalW (edges_to_weighted_adjacency_list adj) →
      c2 < U32MAX → WMem (edges_to_weighted_adjacency_list adj) w →
      c2 + w < U32MOD := by
    intro c2 w _ hc2 hw
    have h1 : w = 1 := WMem_derived hw
    subst h1
    unfold U32MAX at hc2
    unfold U32MOD
    omega
  obtain ⟨t1, hrun1, hfin1⟩ := dijkstras_spec hclW hnw s
  obtain ⟨t2, hrun2, hfin2⟩ := breadth_first_search_spec hcl s
  exact ⟨t1, t2, hrun1, hrun2, derived_table_eq hcl hfin1 hfin2⟩

/-- Witness for C3 on the diamond-with-chord test graph of main.rs. -/
theorem claim_C3_witness :
    closedU (edges_to_adjacency_list [(1, 2), (2, 3), (1, 4), (2, 4), (3, 4)]) ∧
    ∃ t1 t2,
      dijkstras (edges_to_weighted_adjacency_list
        (edges_to_adjacency_list [(1, 2), (2, 3), (1, 4), (2, 4), (3, 4)])) 1 = some t1 ∧
      breadth_first_search (edges_to_adjacency_list
        [(1, 2), (2, 3), (1, 4), (2, 4), (3, 4)]) 1 = some t2 ∧
      ∀ v, lookupM t1 v = lookupM t2 v :=
  ⟨by unfold closedU; decide,
    claim_C3 (edges_to_adjacency_list [(1, 2), (2, 3), (1, 4), (2, 4), (3, 4)])
      1 (by unfold closedU; decide)⟩

/-- C6: both fatal precondition violations yield no result at all: an
oversized sample makes the two harness functions panic on their
`assert!` (modelled `none`), and an empty collection makes
`calc_distance_stats` panic on its `assert!` (modelled `none`). -/
theorem claim_C6 :
    (∀ (adj : Adj) (k : Nat) (shuffled : List Nat), adj.length < k →
      run_random_test_bfs adj k shuffled = none) ∧
    (∀ (adj : WAdj) (k : Nat) (shuffled : List Nat), adj.length < k →
      run_random_test_dijkstras adj k shuffled = none) ∧
    (∀ l : List DistancePair, l = [] → calc_distance_stats l = none) := by
  refine ⟨?_, ?_, ?_⟩
  · intro adj k sh h
    unfold run_random_test_bfs
    rw [if_neg (by omega)]
  · intro adj k sh h
    unfold run_random_test_dijkstras
    rw [if_neg (by omega)]
  · intro l h
    subst h
    rfl

/-- Witness for C6 at a one-vertex graph, an oversized sample of 2, and
the empty record collection. -/
theorem claim_C6_witness :
    run_random_test_bfs (edges_to_adjacency_list [(1, 1)]) 2 [1] = none ∧
    run_random_test_dijkstras [(1, [(1, 1)])] 2 [1] = none ∧
    calc_distance_stats [] = none :=
  ⟨claim_C6.1 _ 2 [1] (by decide), claim_C6.2.1 [(1, [(1, 1)])] 2 [1] (by decide),
    claim_C6.2.2 [] rfl⟩

/-- C8: the builder realizes the symmetric closure with per-key neighbor
lists in exact edge order, keeping duplicates and self-loops: the neighbor
list of `k` is the edge-ordered concatenation of one entry per occurrence
of `k` as an endpoint, and both endpoints of every edge see each other. -/
theorem claim_C8 (E : List (Nat × Nat)) :
    (∀ k, adjOf (edges_to_adjacency_list E) k =
      (E.map (fun e => (if e.1 = k then [e.2] else []) ++
        (if e.2 = k then [e.1] else []))).flatten) ∧
    (∀ e ∈ E, e.2 ∈ adjOf (edges_to_adjacency_list E) e.1 ∧
      e.1 ∈ adjOf (edges_to_adjacency_list E) e.2) := by
  refine ⟨adjOf_build E, ?_⟩
  intro e he
  constructor
  · rw [mem_adjOf_build]
    exact Or.inl (by simpa using he)
  · rw [mem_adjOf_build]
    exact Or.inr (by simpa using he)

/-- Witness for C8 on a duplicated edge and a self-loop. -/
theorem claim_C8_witness :
    2 ∈ adjOf (edges_to_adjacency_list [(1, 2), (1, 2), (2, 2)]) 1 ∧
    1 ∈ adjOf (edges_to_adjacency_list [(1, 2), (1, 2), (2, 2)]) 2 :=
  (claim_C8 [(1, 2), (1, 2), (2, 2)]).2 (1, 2) (by decide)

/-- C9 as stated is false: when the start vertex is not a key of the
adjacency map, the returned table contains it anyway (`init_hashmap`
inserts `start ↦ 0` unconditionally), so the key set of the table is not
the key set of the map.  Concretely, BFS over the graph of the single
edge (1,2) from start 3 returns a table defined at 3. -/
theorem claim_C9_cex :
    (lookupM ((breadth_first_search (edges_to_adjacency_list [(1, 2)]) 3).getD [])
      3).isSome ∧
    3 ∉ keysOf (edges_to_adjacency_list [(1, 2)]) := by
  decide

/-- C9, amended: the key set of the returned table is the key set of the
adjacency map together with the start vertex (hence exactly the key set
whenever the start is a key). -/
theorem claim_C9 (adj : Adj) (s : Nat) (hcl : closedU adj) :
    ∃ t, breadth_first_search adj s = some t ∧
      ∀ k, (lookupM t k).isSome ↔ (k ∈ keysOf adj ∨ k = s) := by
  obtain ⟨t, hrun, hfin⟩ := breadth_first_search_spec hcl s
  exact ⟨t, hrun, hfin.dom⟩

/-- Witness for the amended C9. -/
theorem claim_C9_witness :
    closedU (edges_to_adjacency_list [(1, 2)]) ∧
    ∃ t, breadth_first_search (edges_to_adjacency_list [(1, 2)]) 3 = some t ∧
      ∀ k, (lookupM t k).isSome ↔
        (k ∈ keysOf (edges_to_adjacency_list [(1, 2)]) ∨ k = 3) :=
  ⟨by unfold closedU; decide,
    claim_C9 (edges_to_adjacency_list [(1, 2)]) 3 (by unfold closedU; decide)⟩

/-- C10: when every vertex occurring in a neighbor list is a key of the
map (the closure `edges_to_adjacency_list` always establishes), none of
the unguarded distance-table lookups inside the loops can miss, so both
functions return a table for every such input and start vertex. -/
theorem claim_C10 (adj : Adj) (wadj : WAdj) (s1 s2 : Nat)
    (h1 : closedU adj) (h2 : closedW wadj) :
    (breadth_first_search adj s1).isSome ∧ (dijkstras wadj s2).isSome := by
  constructor
  · obtain ⟨t, hrun, _⟩ := breadth_first_search_spec h1 s1
    simp [hrun]
  · obtain ⟨t, hrun, _⟩ := dijkstras_safe h2 s2
    simp [hrun]

/-- Witness for C10. -/
theorem claim_C10_witness :
    closedU (edges_to_adjacency_list [(1, 2)]) ∧ closedW [(5, [(5, 7)])] ∧
    (breadth_first_search (edges_to_adjacency_list [(1, 2)]) 2).isSome ∧
    (dijkstras [(5, [(5, 7)])] 5).isSome :=
  ⟨by unfold closedU; decide, by unfold closedW; decide,
    claim_C10 (edges_to_adjacency_list [(1, 2)]) [(5, [(5, 7)])] 2 5
      (by unfold closedU; decide) (by unfold closedW; decide)⟩

/-- Correctness property of a Dijkstra run claimed by C2: a table is
returned; every reachable vertex is mapped to the minimum total weight of
any path from the start; every unreachable mapped vertex carries
`u32::MAX`. -/
def DijCorrect (adj : WAdj) (s : Nat) : Prop :=
  ∃ t, dijkstras adj s = some t ∧
    (∀ v, ReachW adj s v →
      ∃ d, lookupM t v = some d ∧ WWalk adj s v d ∧ ∀ c, WWalk adj s v c → d ≤ c) ∧
    (∀ v d, lookupM t v = some d → ¬ ReachW adj s v → d = U32MAX)

/-- The weighted graph on which the original C2 fails: `new_cost =
curr_cost + weight` is a `u32` addition, and two half-range weights make
it wrap to `0`. -/
def cexAdj : WAdj :=
  [(1, [(2, 2147483648)]), (2, [(1, 2147483648), (3, 2147483648)]),
    (3, [(2, 2147483648)])]

/-- C2 fails for arbitrary `u32` weights: on `cexAdj`, vertex 3 is
reachable and the minimum total path weight is `2^32` (indeed no walk to 3
has weight 0), yet `dijkstras` maps 3 to `0` because the cost addition
wrapped. -/
theorem claim_C2_cex :
    dijkstras cexAdj 1 = some [(1, 0), (2, 2147483648), (3, 0)] ∧
    WWalk cexAdj 1 3 4294967296 ∧
    (∀ c, WWalk cexAdj 1 3 c → c ≠ 0) := by
  refine ⟨by decide, ?_, ?_⟩
  · have h1 : ((2 : Nat), (2147483648 : Nat)) ∈ wAdjOf cexAdj 1 := by
      unfold wAdjOf cexAdj
      decide
    have h2 : ((3 : Nat), (2147483648 : Nat)) ∈ wAdjOf cexAdj 2 := by
      unfold wAdjOf cexAdj
      decide
    have h3 := WWalk.cons (WWalk.cons (WWalk.nil : WWalk cexAdj 1 1 0) h1) h2
    simpa using h3
  · intro c hc
    have hkey : ∀ u w : Nat, ((3 : Nat), w) ∈ wAdjOf cexAdj u → w = 2147483648 := by
      intro u w hm
      simp only [cexAdj, wAdjOf, lookupM] at hm
      split_ifs at hm <;> simp_all
    cases hc with
    | cons hw hm =>
      rename_i u c2 w
      have := hkey u w hm
      omega

/-- C2, amended: the characterization holds for every neighbor-closed
weighted adjacency structure whose total weight is small enough that no
`u32` cost addition can overflow (twice the total weight below `2^32`;
the arbitrary non-negative weights of the original claim break on
overflow, see `claim_C2_cex`).  Stale priority-queue entries are discarded
without touching the table or relaxing anything. -/
theorem claim_C2 (adj : WAdj) (s : Nat) (hcl : closedW adj)
    (hW : 2 * totalW adj < U32MOD) :
    DijCorrect adj s ∧
    (∀ (fuel : Nat) (dists q rest : List (Nat × Nat)) (u c du : Nat),
      popMin q = some ((u, c), rest) → lookupM dists u = some du → du < c →
      dijLoop adj (fuel + 1) dists q = dijLoop adj fuel dists rest) := by
  have hSmax : totalW adj < U32MAX := by
    unfold U32MAX
    unfold U32MOD at hW
    omega
  have hnw : ∀ c2 w, c2 ≤ totalW adj → c2 < U32MAX → WMem adj w →
      c2 + w < U32MOD := by
    intro c2 w h1 _ h3
    have h4 := WMem_le_totalW h3
    unfold U32MOD
    unfold U32MOD at hW
    omega
  obtain ⟨t, hrun, hfin⟩ := dijkstras_spec hcl hnw s
  refine ⟨⟨t, hrun, ?_, ?_⟩, ?_⟩
  · intro v hreach
    exact dfinal_reachable_eq hcl hSmax hfin hreach
  · intro v d hd hnr
    exact dfinal_unreachable hfin hd hnr
  · intro fuel dists q rest u c du hpop hdu hlt
    exact dijLoop_stale adj fuel dists q rest u c du hpop hdu hlt

/-- Witness for the amended C2 on a two-vertex graph of weight 5. -/
theorem claim_C2_witness :
    closedW [(1, [(2, 5)]), (2, [(1, 5)])] ∧
    2 * totalW [(1, [(2, 5)]), (2, [(1, 5)])] < U32MOD ∧
    DijCorrect [(1, [(2, 5)]), (2, [(1, 5)])] 1 :=
  ⟨by unfold closedW; decide, by decide,
    (claim_C2 [(1, [(2, 5)]), (2, [(1, 5)])] 1 (by unfold closedW; decide) (by decide)).1⟩

/-- Conclusion of C7: symmetric distances between `u` and `v` for the BFS
tables and for the Dijkstra tables on the derived weighted structure. -/
def SymmCorrect (E : List (Nat × Nat)) (u v : Nat) : Prop :=
  ∃ tu tv wtu wtv du dv eu ev,
    breadth_first_search (edges_to_adjacency_list E) u = some tu ∧
    breadth_first_search (edges_to_adjacency_list E) v = some tv ∧
    dijkstras (edges_to_weighted_adjacency_list (edges_to_adjacency_list E)) u
      = some wtu ∧
    dijkstras (edges_to_weighted_adjacency_list (edges_to_adjacency_list E)) v
      = some wtv ∧
    lookupM tu v = some du ∧ lookupM tv u = some dv ∧ du = dv ∧
    lookupM wtu v = some eu ∧ lookupM wtv u = some ev ∧ eu = ev

/-- C7: on every adjacency map built by `edges_to_adjacency_list` (hence
symmetric) and every two mutually reachable vertices, the BFS distance
from `u` to `v` equals the BFS distance from `v` to `u`, and likewise for
`dijkstras` on the derived weighted map. -/
theorem claim_C7 (E : List (Nat × Nat)) (u v : Nat)
    (huv : ReachU (edges_to_adjacency_list E) u v)
    (hvu : ReachU (edges_to_adjacency_list E) v u) :
    SymmCorrect E u v := by
  have hcl : closedU (edges_to_adjacency_list E) := closedU_build E
  have hsym := symm_build E
  obtain ⟨tu, hru, hfu⟩ := breadth_first_search_spec hcl u
  obtain ⟨tv, hrv, hfv⟩ := breadth_first_search_spec hcl v
  have hclW := closedW_derived hcl
  have hnw : ∀ c2 w,
      c2 ≤ totalW (edges_to_weighted_adjacency_list (edges_to_adjacency_list E)) →
      c2 < U32MAX →
      WMem (edges_to_weighted_adjacency_list (edges_to_adjacency_list E)) w →
      c2 + w < U32MOD := by
    intro c2 w _ hc2 hw
    have h1 : w = 1 := WMem_derived hw
    subst h1
    unfold U32MAX at hc2
    unfold U32MOD
    omega
  obtain ⟨wtu, hwu, hfwu⟩ := dijkstras_spec hclW hnw u
  obtain ⟨wtv, hwv, hfwv⟩ := dijkstras_spec hclW hnw v
  rw [reachU_iff_walkN] at huv hvu
  obtain ⟨n1, hn1⟩ := huv
  obtain ⟨n2, hn2⟩ := hvu
  have hvdom : v ∈ keysOf (edges_to_adjacency_list E) ∨ v = u := by
    rcases walkN_endpoint hcl hn1 with h | h
    · exact Or.inr h
    · exact Or.inl h
  have hudom : u ∈ keysOf (edges_to_adjacency_list E) ∨ u = v := by
    rcases walkN_endpoint hcl hn2 with h | h
    · exact Or.inr h
    · exact Or.inl h
  obtain ⟨du, hdu⟩ := Option.isSome_iff_exists.mp ((hfu.dom v).mpr hvdom)
  obtain ⟨dv, hdv⟩ := Option.isSome_iff_exists.mp ((hfv.dom u).mpr hudom)
  have h12 : du ≤ dv := by
    by_cases h : dv < U32MAX
    · rcases hfv.real u dv hdv with h2 | h2
      · omega
      · have h3 := bfinal_le_walk hcl hfu (walkN_symm hsym h2)
        rw [DV, hdu] at h3
        exact h3
    · have h2 := hfu.vmax v du hdu
      have h3 : dv = U32MAX := le_antisymm (hfv.vmax u dv hdv) (not_lt.mp h)
      omega
  have h21 : dv ≤ du := by
    by_cases h : du < U32MAX
    · rcases hfu.real v du hdu with h2 | h2
      · omega
      · have h3 := bfinal_le_walk hcl hfv (walkN_symm hsym h2)
        rw [DV, hdv] at h3
        exact h3
    · have h2 := hfv.vmax u dv hdv
      have h3 : du = U32MAX := le_antisymm (hfu.vmax v du hdu) (not_lt.mp h)
      omega
  have heq : du = dv := le_antisymm h12 h21
  have heq1 := derived_table_eq hcl hfwu hfu v
  have heq2 := derived_table_eq hcl hfwv hfv u
  refine ⟨tu, tv, wtu, wtv, du, dv, du, dv, hru, hrv, hwu, hwv, hdu, hdv, heq,
    ?_, ?_, heq⟩
  · rw [heq1, hdu]
  · rw [heq2, hdv]

/-- Witness for C7 on the single edge (1,2). -/
theorem claim_C7_witness :
    ReachU (edges_to_adjacency_list [(1, 2)]) 1 2 ∧
    ReachU (edges_to_adjacency_list [(1, 2)]) 2 1 ∧
    SymmCorrect [(1, 2)] 1 2 :=
  ⟨⟨[2, 1], WalkV.cons WalkV.nil (by decide)⟩,
    ⟨[1, 2], WalkV.cons WalkV.nil (by decide)⟩,
    claim_C7 [(1, 2)] 1 2 ⟨[2, 1], WalkV.cons WalkV.nil (by decide)⟩
      ⟨[1, 2], WalkV.cons WalkV.nil (by decide)⟩⟩

/-- The pair-structure properties claimed of a harness result with sample
`sample` of size `k`: exactly `k*(k-1)/2` records, no self-pair, each
unordered pair of distinct sampled vertices exactly once, and `node_1`
always earlier in the (shuffled) sample order than `node_2`. -/
def PairProps (l : List DistancePair) (sample : List Nat) (k : Nat) : Prop :=
  l.length = k * (k - 1) / 2 ∧
  (∀ p ∈ l, p.node_1 ≠ p.node_2 ∧ p.node_1 ∈ sample ∧ p.node_2 ∈ sample) ∧
  (∀ a b : Nat, a ∈ sample → b ∈ sample → a ≠ b →
    (l.map (fun p => (p.node_1, p.node_2))).count (a, b) +
      (l.map (fun p => (p.node_1, p.node_2))).count (b, a) = 1) ∧
  (∀ p ∈ l, ∃ A B C, sample = A ++ p.node_1 :: (B ++ p.node_2 :: C))

theorem pairProps_of_offDiag {l : List DistancePair} {sample : List Nat} {k : Nat}
    (hmap : l.map (fun p => (p.node_1, p.node_2)) = offDiag sample)
    (hnd : sample.Nodup) (hlen : sample.length = k) :
    PairProps l sample k := by
  have hlenl : l.length = k * (k - 1) / 2 := by
    have h1 : l.length = (offDiag sample).length := by
      rw [← hmap]
      simp
    have h2 := offDiag_length sample
    rw [hlen] at h2
    omega
  refine ⟨hlenl, ?_, ?_, ?_⟩
  · intro p hp
    have hmem : (p.node_1, p.node_2) ∈ offDiag sample := by
      rw [← hmap]
      exact List.mem_map_of_mem _ hp
    exact ⟨offDiag_ne hnd _ hmem, (offDiag_mem_mem hmem).1, (offDiag_mem_mem hmem).2⟩
  · intro a b ha hb hne
    rw [hmap]
    exact offDiag_count hnd ha hb hne
  · intro p hp
    have hmem : (p.node_1, p.node_2) ∈ offDiag sample := by
      rw [← hmap]
      exact List.mem_map_of_mem _ hp
    exact offDiag_mem_split hmem

/-- C4 fails as stated: on an adjacency map that lists a neighbor missing
from the keys, the single-source run panics on the unguarded table lookup
(modelled `none`), so nothing is returned; the sample-size precondition
of the claim holds at this input. -/
theorem claim_C4_cex :
    1 ≤ ([(1, [2])] : Adj).length ∧
    [(1 : Nat)].Perm (keysOf ([(1, [2])] : Adj)) ∧
    run_random_test_bfs [(1, [2])] 1 [1] = none := by
  refine ⟨by decide, ?_, by decide⟩
  have : keysOf ([(1, [2])] : Adj) = [1] := by decide
  rw [this]

/-- C4, amended: for every neighbor-closed adjacency map (as the graph
builder produces) with distinct keys, at least `k` of them, and a shuffle
of the keys, both harness functions return exactly the claimed pair
structure over the first `k` shuffled vertices. -/
theorem claim_C4 (adjU : Adj) (adjW : WAdj) (k : Nat) (shuffU shuffW : List Nat)
    (hclU : closedU adjU) (hndU : (keysOf adjU).Nodup)
    (hpermU : shuffU.Perm (keysOf adjU)) (hkU : k ≤ adjU.length)
    (hclW : closedW adjW) (hndW : (keysOf adjW).Nodup)
    (hpermW : shuffW.Perm (keysOf adjW)) (hkW : k ≤ adjW.length) :
    (∃ l, run_random_test_bfs adjU k shuffU = some l ∧
      PairProps l (shuffU.take k) k) ∧
    (∃ l, run_random_test_dijkstras adjW k shuffW = some l ∧
      PairProps l (shuffW.take k) k) := by
  constructor
  · have hsub : ∀ y ∈ shuffU.take k, y ∈ keysOf adjU := by
      intro y hy
      exact (hpermU.mem_iff).mp (List.take_subset _ _ hy)
    obtain ⟨l, hrun, hmap⟩ := outerBfs_spec hclU (shuffU.take k) hsub
    refine ⟨l, ?_, ?_⟩
    · unfold run_random_test_bfs
      rw [if_pos hkU, hrun]
    · refine pairProps_of_offDiag hmap
        (((hpermU.nodup_iff).mpr hndU).sublist (List.take_sublist _ _)) ?_
      have h1 : shuffU.length = (keysOf adjU).length := hpermU.length_eq
      have h2 : (keysOf adjU).length = adjU.length := by simp [keysOf]
      rw [List.length_take]
      omega
  · have hsub : ∀ y ∈ shuffW.take k, y ∈ keysOf adjW := by
      intro y hy
      exact (hpermW.mem_iff).mp (List.take_subset _ _ hy)
    obtain ⟨l, hrun, hmap⟩ := outerDij_spec hclW (shuffW.take k) hsub
    refine ⟨l, ?_, ?_⟩
    · unfold run_random_test_dijkstras
      rw [if_pos hkW, hrun]
    · refine pairProps_of_offDiag hmap
        (((hpermW.nodup_iff).mpr hndW).sublist (List.take_sublist _ _)) ?_
      have h1 : shuffW.length = (keysOf adjW).length := hpermW.length_eq
      have h2 : (keysOf adjW).length = adjW.length := by simp [keysOf]
      rw [List.length_take]
      omega

/-- Witness for the amended C4 on the single edge (1,2), sample size 2. -/
theorem claim_C4_witness :
    closedU (edges_to_adjacency_list [(1, 2)]) ∧
    [1, 2].Perm (keysOf (edges_to_adjacency_list [(1, 2)])) ∧
    (∃ l, run_random_test_bfs (edges_to_adjacency_list [(1, 2)]) 2 [1, 2] = some l ∧
      PairProps l ([1, 2].take 2) 2) ∧
    (∃ l, run_random_test_dijkstras
        (edges_to_weighted_adjacency_list (edges_to_adjacency_list [(1, 2)])) 2 [1, 2]
        = some l ∧
      PairProps l ([1, 2].take 2) 2) := by
  have hperm : [1, 2].Perm (keysOf (edges_to_adjacency_list [(1, 2)])) := by
    have h : keysOf (edges_to_adjacency_list [(1, 2)]) = [1, 2] := by decide
    rw [h]
  have hpermW : [1, 2].Perm
      (keysOf (edges_to_weighted_adjacency_list (edges_to_adjacency_list [(1, 2)]))) := by
    have h : keysOf (edges_to_weighted_adjacency_list (edges_to_adjacency_list [(1, 2)]))
        = [1, 2] := by decide
    rw [h]
  have hmain := claim_C4 (edges_to_adjacency_list [(1, 2)])
    (edges_to_weighted_adjacency_list (edges_to_adjacency_list [(1, 2)])) 2 [1, 2] [1, 2]
    (by unfold closedU; decide) (by decide) hperm (by decide)
    (by unfold closedW; decide) (by decide) hpermW (by decide)
  exact ⟨by unfold closedU; decide, hperm, hmain.1, hmain.2⟩

/-- Exact-arithmetic statistics claimed of `calc_distance_stats`: the
count, the mean `sum / count`, and the population variance (the square of
the claimed standard deviation, divided by `count` and not `count - 1`). -/
def StatsCorrect (l : List DistancePair) : Prop :=
  calc_distance_stats l = some (l.length,
    ((l.map (fun p => p.distance)).sum : ℚ) / (l.length : ℚ),
    (l.map (fun p => ((p.distance : ℚ) -
      ((l.map (fun q => q.distance)).sum : ℚ) / (l.length : ℚ)) ^ 2)).sum /
      (l.length : ℚ))

/-- C5 fails as stated for every non-empty collection: `total_distance`
is a `u32` accumulator, so two distances of `2^31` wrap the sum to `0` and
the returned mean is `0` instead of the claimed `sum / count = 2^31`. -/
theorem claim_C5_cex :
    calc_distance_stats [⟨0, 1, 2147483648⟩, ⟨2, 3, 2147483648⟩] =
      some (2, 0, 4611686018427387904) ∧
    ((([(⟨0, 1, 2147483648⟩ : DistancePair), ⟨2, 3, 2147483648⟩].map
      (fun p => p.distance)).sum : ℚ) / 2 ≠ 0) := by
  constructor
  · have h1 : ([⟨0, 1, 2147483648⟩, ⟨2, 3, 2147483648⟩] : List DistancePair).foldl
        (fun acc p => (acc + p.distance) % U32MOD) 0 = 0 := by decide
    simp only [calc_distance_stats, h1, List.foldl, List.length_cons, List.length_nil]
    norm_num [U32MOD]
  · norm_num

/-- C5, amended: for every non-empty collection whose distance total fits
in `u32`, `calc_distance_stats` returns the count, the exact mean
`sum / count`, and the population variance (square of the standard
deviation); in particular distances `[1,2,3]` give count 3, mean 2 and
variance `2/3` (standard deviation `sqrt (2/3)`).  The `f64` arithmetic
of the Rust code is idealized over `ℚ` and its final `sqrt` is verified
at the level of its square, the variance. -/
theorem claim_C5 (l : List DistancePair) (h0 : 0 < l.length)
    (hsum : (l.map (fun p => p.distance)).sum < U32MOD) :
    StatsCorrect l ∧
    calc_distance_stats [⟨1, 2, 1⟩, ⟨2, 3, 2⟩, ⟨1, 3, 3⟩] = some (3, 2, 2 / 3) := by
  constructor
  · unfold StatsCorrect
    simp only [calc_distance_stats]
    rw [if_pos h0]
    have htot : l.foldl (fun acc p => (acc + p.distance) % U32MOD) 0 =
        (l.map (fun p => p.distance)).sum := by
      have h := foldl_wrap_eq_sum l 0 (by omega)
      simpa using h
    rw [htot]
    rw [foldl_add_rat]
    simp [Function.comp_def]
  · have h1 : ([⟨1, 2, 1⟩, ⟨2, 3, 2⟩, ⟨1, 3, 3⟩] : List DistancePair).foldl
        (fun acc p => (acc + p.distance) % U32MOD) 0 = 6 := by decide
    simp only [calc_distance_stats, h1, List.foldl, List.length_cons, List.length_nil]
    norm_num [U32MOD]

/-- Witness for the amended C5 on the distances [1,2,3]. -/
theorem claim_C5_witness :
    0 < ([⟨1, 2, 1⟩, ⟨2, 3, 2⟩, ⟨1, 3, 3⟩] : List DistancePair).length ∧
    (([(⟨1, 2, 1⟩ : DistancePair), ⟨2, 3, 2⟩, ⟨1, 3, 3⟩].map
      (fun p => p.distance)).sum < U32MOD) ∧
    StatsCorrect [⟨1, 2, 1⟩, ⟨2, 3, 2⟩, ⟨1, 3, 3⟩] :=
  ⟨by decide, by decide,
    (claim_C5 [⟨1, 2, 1⟩, ⟨2, 3, 2⟩, ⟨1, 3, 3⟩] (by decide) (by decide)).1⟩

end DijkstraVsBFS
